import Mathlib

/-!
# Verification of the fsutil filesystem decorators

A shallow embedding of the `fsutil` Go package: the `HashFS` content-hash
injecting filesystem (`hashfs.go`) and the `BackupFS` snapshot/overlay
filesystem (`backupfs.go`), together with the `MD5Hasher` and the
construction-time directory validation.

Modelling conventions:
* Paths, filenames and hash tokens are `List Char` (Go strings restricted to
  the operations the package uses: splitting on `'.'` and `'/'`,
  concatenation, suffix tests, lexicographic comparison).
* File content is `List Nat` (a byte sequence).
* Go errors are the inductive `Err`; `fmt.Errorf("...: %w", err)` wrapping is
  the `Err.wrap` constructor and `errors.Is(err, fs.ErrNotExist)` is
  `Err.isNotExist`, which looks through wrapping exactly as `errors.Is` does.
* The wrapped abstract filesystem (`fs.FS` together with the `fs.StatFS`,
  `fs.ReadFileFS`, `fs.ReadDirFS`, `fs.GlobFS` capabilities used through the
  `io/fs` helpers) is the record `FSys` of independent capability functions;
  a file handle is `File` (its `Stat` result and its readable content).
* The `HashFS.hashes` map guarded by `hashesMu` is an association list
  `Cache` threaded explicitly through the operations.
-/

set_option linter.unusedVariables false

/-- Stage tags used by `HashFS.hash` when wrapping errors
(`"open file"`, `"stat file"`, `"hash file"` in `hashfs.go`). -/
inductive Ctx where
  | openStage : Ctx
  | statStage : Ctx
  | hashStage : Ctx
deriving DecidableEq, Repr

/-- Go error values as the package observes them: `fs.ErrNotExist`, any other
error (tagged by a number), and `fmt.Errorf` wrapping with stage context. -/
inductive Err where
  | notExist : Err
  | other : Nat → Err
  | wrap : Ctx → Err → Err
deriving DecidableEq, Repr

/-- `errors.Is(err, fs.ErrNotExist)`: true for `fs.ErrNotExist` itself and for
any chain of wrappings around it. -/
def Err.isNotExist : Err → Bool
  | .notExist => true
  | .other _ => false
  | .wrap _ e => e.isNotExist

deriving instance DecidableEq for Except

/-- `fs.FileInfo` as used by the package: reported name, size, directory flag. -/
structure FInfo where
  name : List Char
  size : Nat
  isDir : Bool
deriving DecidableEq, Repr

/-- An opened `fs.File` handle: the result of calling `Stat()` on the handle
and the byte content a full read returns. -/
structure File where
  stat : Except Err FInfo
  content : List Nat
deriving DecidableEq, Repr

/-- An `fs.DirEntry`: reported name, directory flag, and an opaque identity
(`id`) standing for the rest of the underlying record (type bits, info). -/
structure DirEntry where
  name : List Char
  isDir : Bool
  id : Nat
deriving DecidableEq, Repr

/-- The abstract filesystem capability set (spec §6): the wrapped `fs.FS`
with the `io/fs` helpers `fs.Stat`, `fs.ReadFile`, `fs.ReadDir`, `fs.Glob`
as independent capabilities. -/
structure FSys where
  openFile : List Char → Except Err File
  stat : List Char → Except Err FInfo
  readFile : List Char → Except Err (List Nat)
  readDir : List Char → Except Err (List DirEntry)
  glob : List Char → Except Err (List (List Char))

/-- The `Hasher` interface of the package: `Hash` consumes the (already read)
byte content of the open stream, `IsHash` recognizes token syntax. -/
structure HasherI where
  hashF : List Nat → Except Err (List Char)
  isHash : List Char → Bool

/-! ## MD5Hasher (`backupfs.go` companion source, lines 369-421) -/

/-- `var hexChars = []rune("0123456789abcdef")`. -/
def hexChars : List Char := "0123456789abcdef".toList

/-- `hex.EncodeToString`: each byte `b` becomes the two characters
`hextable[b>>4]` and `hextable[b&0x0f]`. Bytes are assumed `< 256`. -/
def hexEncode : List Nat → List Char
  | [] => []
  | b :: bs => hexChars.getD (b / 16) ' ' :: hexChars.getD (b % 16) ' ' :: hexEncode bs

/-- `MD5Hasher` configuration: the requested token length. -/
structure MD5Hasher where
  hashLength : Nat
deriving DecidableEq, Repr

/-- `NewMD5Hasher`. -/
def NewMD5Hasher (hashLength : Nat) : MD5Hasher := ⟨hashLength⟩

/-- `MD5Hasher.Hash`: `digest` stands for the external `crypto/md5` sum
(`md5.New` + `io.Copy` + `Sum`), an external collaborator whose contract is
that it returns `md5.Size = 16` bytes. If `len(h) < s.hashLength` the method
returns the empty token (with a nil error); otherwise it hex-encodes the
digest and truncates to `hashLength`. Reading the pure content cannot fail,
so the Go error return is dropped. -/
def MD5Hasher.Hash (s : MD5Hasher) (digest : List Nat → List Nat)
    (content : List Nat) : List Char :=
  let h := digest content
  if h.length < s.hashLength then []
  else (hexEncode h).take s.hashLength

/-- `MD5Hasher.IsHash`: length must equal `hashLength` and every character
must occur in `hexChars`. -/
def MD5Hasher.IsHash (s : MD5Hasher) (h : List Char) : Bool :=
  if h.length ≠ s.hashLength then false
  else h.all (fun c => hexChars.contains c)

theorem hexEncode_length (bs : List Nat) : (hexEncode bs).length = 2 * bs.length := by
  induction bs with
  | nil => rfl
  | cons b bs ih => simp [hexEncode, ih]; ring

theorem hexChars_getD_mem : ∀ i < 16, hexChars.contains (hexChars.getD i ' ') = true := by
  decide

theorem hexEncode_mem (bs : List Nat) (hb : ∀ b ∈ bs, b < 256) :
    ∀ c ∈ hexEncode bs, hexChars.contains c = true := by
  induction bs with
  | nil => intro c hc; cases hc
  | cons b bs ih =>
    intro c hc
    have hb0 : b < 256 := hb b (List.mem_cons_self _ _)
    rcases hc with _ | ⟨_, hc⟩
    · exact hexChars_getD_mem (b / 16) (Nat.div_lt_of_lt_mul hb0)
    · rcases hc with _ | ⟨_, hc⟩
      · exact hexChars_getD_mem (b % 16) (Nat.mod_lt _ (by norm_num))
      · exact ih (fun x hx => hb x (List.mem_cons_of_mem _ hx)) c hc

/-- C6 counterexample: with `hashLength = 17` (more than the 16 digest bytes,
for any digest function honouring the `md5.Size = 16` contract) `Hash`
degrades to the empty token and `IsHash` rejects it, so
`H.IsHash(H.Hash(C))` is false for this Hasher configuration. -/
theorem md5hasher_ishash_hash_cex :
    MD5Hasher.IsHash ⟨17⟩ (MD5Hasher.Hash ⟨17⟩ (fun _ => List.replicate 16 0) []) = false ∧
    ((fun (_ : List Nat) => List.replicate 16 (0 : Nat)) []).length = 16 := by
  decide

/-- C6 (amended): for every content and every digest honouring the
`crypto/md5` contract (16 bytes, each < 256), and every Hasher configuration
with `hashLength ≤ 16`, `IsHash (Hash C)` is true; and hashing equal content
yields equal tokens (determinism, immediate since the embedding is a pure
function of the content). -/
theorem md5hasher_ishash_hash (s : MD5Hasher) (digest : List Nat → List Nat)
    (c : List Nat) (hlen : (digest c).length = 16)
    (hbytes : ∀ b ∈ digest c, b < 256) (hcfg : s.hashLength ≤ 16) :
    s.IsHash (s.Hash digest c) = true ∧
    (∀ c₁ c₂ : List Nat, c₁ = c₂ → s.Hash digest c₁ = s.Hash digest c₂) := by
  refine ⟨?_, fun c₁ c₂ h => by rw [h]⟩
  have hnotlt : ¬ (digest c).length < s.hashLength := by omega
  have htake : (MD5Hasher.Hash s digest c) = (hexEncode (digest c)).take s.hashLength := by
    simp [MD5Hasher.Hash, hnotlt]
  have hlen2 : ((hexEncode (digest c)).take s.hashLength).length = s.hashLength := by
    rw [List.length_take, hexEncode_length, hlen]
    omega
  rw [MD5Hasher.IsHash, htake]
  simp only [hlen2, ne_eq, not_true_eq_false, if_false]
  rw [List.all_eq_true]
  intro x hx
  exact hexEncode_mem (digest c) hbytes x (List.mem_of_mem_take hx)

/-- C6 witness: a concrete in-range configuration (`hashLength = 6`). -/
theorem md5hasher_ishash_hash_witness :
    MD5Hasher.IsHash ⟨6⟩ (MD5Hasher.Hash ⟨6⟩ (fun _ => List.replicate 16 0) []) = true :=
  (md5hasher_ishash_hash ⟨6⟩ (fun _ => List.replicate 16 0) []
    (by decide) (by decide) (by decide)).1

/-! ## BackupFS (`backupfs.go`)

`sort.Strings` / `sort.SliceStable` with the `Name() <` comparator are
modelled by `List.mergeSort` with the lexicographic `≤` (a stable sort agreeing
with Go's stable slice sort), and `uniqueStrings` / `uniqueDirEntry` are the
literal Go loops: keep the head, then keep each element iff its key differs
from its immediate predecessor in the input. -/

/-- Go string comparison `a < b` / `a ≤ b`, lexicographic by character:
`nameLe a b` is `a ≤ b`. -/
def nameLe : List Char → List Char → Bool
  | [], _ => true
  | _ :: _, [] => false
  | a :: as, b :: bs => if a = b then nameLe as bs else decide (a < b)

/-- The `sort.SliceStable` comparator of `BackupFS.ReadDir`, keyed on
`Name()`, as a total preorder. -/
def entryLe (x y : DirEntry) : Bool := nameLe x.name y.name

/-- The shared shape of `uniqueStrings`/`uniqueDirEntry`: walk `e[1:]`,
keeping `x` iff its key differs from the key of its predecessor in the
original list. -/
def collapseGo {α : Type} (key : α → List Char) : α → List α → List α
  | _, [] => []
  | prev, x :: xs =>
    if key x ≠ key prev then x :: collapseGo key x xs else collapseGo key x xs

/-- Entry point of the collapse: a list of length ≤ 1 is returned as is,
otherwise the first element is kept and the walk starts. -/
def collapseBy {α : Type} (key : α → List Char) : List α → List α
  | [] => []
  | x :: xs => x :: collapseGo key x xs

/-- `uniqueStrings` (`backupfs.go` lines 224-236). -/
def uniqueStrings (s : List (List Char)) : List (List Char) :=
  collapseBy id s

/-- `uniqueDirEntry` (`backupfs.go` lines 238-250). -/
def uniqueDirEntry (e : List DirEntry) : List DirEntry :=
  collapseBy DirEntry.name e

/-- The `backupFile` wrapper returned by `BackupFS.Open`: the opened handle
together with the requested name and the snapshot filesystem (used later by
its paginated `ReadDir`). -/
structure BackupFile where
  name : List Char
  file : File
  backupFS : FSys

/-- `newBackupFile`. -/
def newBackupFile (name : List Char) (f : File) (backupFS : FSys) : BackupFile :=
  ⟨name, f, backupFS⟩

/-- `BackupFS.Open` (`backupfs.go` lines 87-101): primary first; on a
not-found error fall back to the snapshot; any other primary error
propagates. Successful opens are wrapped in `backupFile`. -/
def BackupFS.Open (p b : FSys) (name : List Char) : Except Err BackupFile :=
  match p.openFile name with
  | .error e =>
    if e.isNotExist then
      match b.openFile name with
      | .error e2 => .error e2
      | .ok f => .ok (newBackupFile name f b)
    else .error e
  | .ok f => .ok (newBackupFile name f b)

/-- `BackupFS.Glob` (`backupfs.go` lines 103-116): glob both filesystems
(any error from either propagates), concatenate primary-first, sort, and
collapse duplicates. -/
def BackupFS.Glob (p b : FSys) (pattern : List Char) :
    Except Err (List (List Char)) :=
  match p.glob pattern with
  | .error e => .error e
  | .ok r =>
    match b.glob pattern with
    | .error e2 => .error e2
    | .ok rc => .ok (uniqueStrings ((r ++ rc).mergeSort nameLe))

/-- `BackupFS.ReadDir` (`backupfs.go` lines 118-144): read both sides with
the `doesNotExist` flag logic, concatenate primary-first, stable-sort by
name, collapse consecutive duplicates. In the branches where one side
reported not-found its entry list is `nil`, so only the other side's list is
sorted. -/
def BackupFS.ReadDir (p b : FSys) (name : List Char) :
    Except Err (List DirEntry) :=
  match p.readDir name with
  | .error e =>
    if e.isNotExist then
      match b.readDir name with
      | .error e2 => .error e2
      | .ok rc => .ok (uniqueDirEntry (rc.mergeSort entryLe))
    else .error e
  | .ok r =>
    match b.readDir name with
    | .error e2 =>
      if e2.isNotExist then .ok (uniqueDirEntry (r.mergeSort entryLe))
      else .error e2
    | .ok rc => .ok (uniqueDirEntry ((r ++ rc).mergeSort entryLe))

/-- `BackupFS.ReadFile` (`backupfs.go` lines 146-156). -/
def BackupFS.ReadFile (p b : FSys) (name : List Char) : Except Err (List Nat) :=
  match p.readFile name with
  | .error e => if e.isNotExist then b.readFile name else .error e
  | .ok data => .ok data

/-- `BackupFS.Stat` (`backupfs.go` lines 158-168). -/
def BackupFS.Stat (p b : FSys) (name : List Char) : Except Err FInfo :=
  match p.stat name with
  | .error e => if e.isNotExist then b.stat name else .error e
  | .ok st => .ok st

/-! ### Order facts about the lexicographic name comparison -/

theorem nameLe_refl (a : List Char) : nameLe a a = true := by
  induction a with
  | nil => rfl
  | cons c cs ih => simp [nameLe, ih]

theorem nameLe_total (a b : List Char) : (nameLe a b || nameLe b a) = true := by
  induction a generalizing b with
  | nil => simp [nameLe]
  | cons c cs ih =>
    cases b with
    | nil => simp [nameLe]
    | cons d ds =>
      by_cases hcd : c = d
      · subst hcd
        simpa [nameLe] using ih ds
      · rcases lt_trichotomy c d with h | h | h
        · simp [nameLe, hcd, h]
        · exact absurd h hcd
        · simp [nameLe, hcd, Ne.symm hcd, h, not_lt_of_gt h]

theorem nameLe_trans (a b c : List Char) :
    nameLe a b = true → nameLe b c = true → nameLe a c = true := by
  induction a generalizing b c with
  | nil => intro _ _; rfl
  | cons x xs ih =>
    cases b with
    | nil => intro h; simp [nameLe] at h
    | cons y ys =>
      cases c with
      | nil => intro _ h; simp [nameLe] at h
      | cons z zs =>
        intro h₁ h₂
        by_cases hxy : x = y <;> by_cases hyz : y = z
        · subst hxy; subst hyz
          simp only [nameLe, if_pos rfl] at h₁ h₂ ⊢
          exact ih ys zs h₁ h₂
        · subst hxy
          simp only [nameLe, if_pos rfl, if_neg hyz] at h₂
          simp [nameLe, hyz, of_decide_eq_true h₂]
        · subst hyz
          simp only [nameLe, if_pos rfl, if_neg hxy] at h₁
          simp [nameLe, hxy, of_decide_eq_true h₁]
        · simp only [nameLe, if_neg hxy] at h₁
          simp only [nameLe, if_neg hyz] at h₂
          have hlt : x < z := lt_trans (of_decide_eq_true h₁) (of_decide_eq_true h₂)
          simp [nameLe, ne_of_lt hlt, hlt]

theorem nameLe_antisymm (a b : List Char) :
    nameLe a b = true → nameLe b a = true → a = b := by
  induction a generalizing b with
  | nil =>
    intro _ h
    cases b with
    | nil => rfl
    | cons d ds => simp [nameLe] at h
  | cons c cs ih =>
    cases b with
    | nil => intro h _; simp [nameLe] at h
    | cons d ds =>
      intro h₁ h₂
      by_cases hcd : c = d
      · subst hcd
        simp only [nameLe, if_pos rfl] at h₁ h₂
        rw [ih ds h₁ h₂]
      · simp only [nameLe, if_neg hcd] at h₁
        simp only [nameLe, if_neg (Ne.symm hcd)] at h₂
        exact absurd (lt_trans (of_decide_eq_true h₁) (of_decide_eq_true h₂))
          (lt_irrefl c)

/-! ### The sort-then-collapse pipeline keeps the first entry of each name

`sort.SliceStable` + `uniqueDirEntry` (and `sort.Strings` + `uniqueStrings`)
keep, for every key value, exactly the first element of the *input*
concatenation carrying that key. -/

section Collapse

variable {α : Type} (key : α → List Char)

theorem filter_mergeSort_key (l : List α) (n : List Char) :
    ((l.mergeSort (fun x y => nameLe (key x) (key y))).filter
        (fun x => decide (key x = n))) =
      l.filter (fun x => decide (key x = n)) := by
  have htrans : ∀ a b c : α, nameLe (key a) (key b) → nameLe (key b) (key c) →
      nameLe (key a) (key c) := fun a b c h₁ h₂ => nameLe_trans _ _ _ h₁ h₂
  have htotal : ∀ a b : α, (nameLe (key a) (key b) || nameLe (key b) (key a)) = true :=
    fun a b => nameLe_total _ _
  have hall : ∀ a ∈ l.filter (fun x => decide (key x = n)), decide (key a = n) = true :=
    fun a ha => (List.mem_filter.mp ha).2
  have hpair : (l.filter (fun x => decide (key x = n))).Pairwise
      (fun a b => nameLe (key a) (key b) = true) := by
    apply List.pairwise_of_forall_mem_list
    intro a ha b hb
    have hka : key a = n := of_decide_eq_true (hall a ha)
    have hkb : key b = n := of_decide_eq_true (hall b hb)
    rw [hka, hkb]
    exact nameLe_refl n
  have hsub : List.Sublist (l.filter (fun x => decide (key x = n)))
      (l.mergeSort (fun x y => nameLe (key x) (key y))) :=
    List.sublist_mergeSort htrans htotal hpair (List.filter_sublist l)
  have hsubf : List.Sublist (l.filter (fun x => decide (key x = n)))
      ((l.mergeSort (fun x y => nameLe (key x) (key y))).filter
        (fun x => decide (key x = n))) := by
    have h2 := List.Sublist.filter (fun x => decide (key x = n)) hsub
    rwa [List.filter_eq_self.mpr hall] at h2
  have hlen : ((l.mergeSort (fun x y => nameLe (key x) (key y))).filter
      (fun x => decide (key x = n))).length =
      (l.filter (fun x => decide (key x = n))).length :=
    ((List.mergeSort_perm l _).filter _).length_eq
  exact (hsubf.eq_of_length hlen.symm).symm

theorem collapseGo_filter (n : List Char) (xs : List α) :
    ∀ (prev : α),
    (prev :: xs).Pairwise (fun a b => nameLe (key a) (key b) = true) →
    ((collapseGo key prev xs).filter (fun x => decide (key x = n))) =
      if key prev = n then []
      else (xs.filter (fun x => decide (key x = n))).take 1 := by
  induction xs with
  | nil =>
    intro prev _
    by_cases hn : key prev = n <;> simp [collapseGo, hn]
  | cons x rest ih =>
    intro prev hsort
    have hpx : nameLe (key prev) (key x) = true :=
      (List.pairwise_cons.mp hsort).1 x (List.mem_cons_self _ _)
    have hsort2 : (x :: rest).Pairwise (fun a b => nameLe (key a) (key b) = true) :=
      (List.pairwise_cons.mp hsort).2
    by_cases hk : key x = key prev
    · rw [collapseGo, if_neg (by simp [hk]), ih x hsort2]
      by_cases hn : key prev = n
      · rw [if_pos hn, if_pos (hk.trans hn)]
      · rw [if_neg hn, if_neg (fun h => hn (hk ▸ h)),
          List.filter_cons_of_neg (by simp [hk, hn])]
    · rw [collapseGo, if_pos (by simp [hk])]
      by_cases hxn : key x = n
      · rw [List.filter_cons_of_pos (by simp [hxn]), ih x hsort2, if_pos hxn]
        have hprevn : ¬ key prev = n := fun h => hk (hxn.trans h.symm)
        rw [if_neg hprevn, List.filter_cons_of_pos (by simp [hxn]), List.take_cons]
        · rfl
        · omega
      · rw [List.filter_cons_of_neg (by simp [hxn]), ih x hsort2, if_neg hxn]
        by_cases hn : key prev = n
        · rw [if_pos hn]
          have hrest : rest.filter (fun x => decide (key x = n)) = [] := by
            rw [List.filter_eq_nil_iff]
            intro y hy
            simp only [decide_eq_true_eq]
            intro hyn
            have hxy : nameLe (key x) (key y) = true :=
              (List.pairwise_cons.mp hsort2).1 y hy
            rw [hyn] at hxy
            rw [hn] at hpx
            exact hxn (nameLe_antisymm _ _ hxy hpx)
          rw [hrest]
          rfl
        · rw [if_neg hn, List.filter_cons_of_neg (by simp [hxn])]

theorem collapseBy_filter (n : List Char) (l : List α)
    (hsort : l.Pairwise (fun a b => nameLe (key a) (key b) = true)) :
    ((collapseBy key l).filter (fun x => decide (key x = n))) =
      (l.filter (fun x => decide (key x = n))).take 1 := by
  cases l with
  | nil => rfl
  | cons x xs =>
    rw [collapseBy]
    by_cases hxn : key x = n
    · rw [List.filter_cons_of_pos (by simp [hxn]),
        collapseGo_filter key n xs x hsort, if_pos hxn,
        List.filter_cons_of_pos (by simp [hxn]), List.take_cons]
      · rfl
      · omega
    · rw [List.filter_cons_of_neg (by simp [hxn]),
        collapseGo_filter key n xs x hsort, if_neg hxn,
        List.filter_cons_of_neg (by simp [hxn])]

theorem collapse_mergeSort_filter (l : List α) (n : List Char) :
    ((collapseBy key (l.mergeSort (fun x y => nameLe (key x) (key y)))).filter
        (fun x => decide (key x = n))) =
      (l.filter (fun x => decide (key x = n))).take 1 := by
  rw [collapseBy_filter key n _
    (@List.sorted_mergeSort α (fun x y => nameLe (key x) (key y))
      (fun a b c h₁ h₂ => nameLe_trans _ _ _ h₁ h₂)
      (fun a b => nameLe_total _ _) l),
    filter_mergeSort_key]

end Collapse

theorem mem_uniqueStrings_mergeSort (l : List (List Char)) (x : List Char) :
    x ∈ uniqueStrings (l.mergeSort nameLe) ↔ x ∈ l := by
  have h : (uniqueStrings (l.mergeSort nameLe)).filter (fun y => decide (y = x)) =
      (l.filter (fun y => decide (y = x))).take 1 :=
    collapse_mergeSort_filter id l x
  constructor
  · intro hx
    have hxf : x ∈ (uniqueStrings (l.mergeSort nameLe)).filter (fun y => decide (y = x)) :=
      List.mem_filter.mpr ⟨hx, by simp⟩
    rw [h] at hxf
    exact (List.mem_filter.mp (List.mem_of_mem_take hxf)).1
  · intro hx
    have hxf : x ∈ l.filter (fun y => decide (y = x)) :=
      List.mem_filter.mpr ⟨hx, by simp⟩
    cases hfe : l.filter (fun y => decide (y = x)) with
    | nil => rw [hfe] at hxf; cases hxf
    | cons y t =>
      have hy : y ∈ (l.filter (fun y => decide (y = x))).take 1 := by
        rw [hfe]
        simp
      rw [← h] at hy
      have h2 := List.mem_filter.mp hy
      have hyx : y = x := of_decide_eq_true h2.2
      rw [← hyx]
      exact h2.1

/-- C3: `BackupFS`'s `Open`, `Stat` and `ReadFile` try the primary
filesystem first; when the primary reports not-found they return the
snapshot's result for the same path (for `Open`, wrapped in the `backupFile`
handle exactly as a primary success is); any other primary error is returned
without consulting the snapshot. -/
theorem backupfs_open_stat_readfile_fallback (p b : FSys) (name : List Char) :
    (∀ f, p.openFile name = .ok f →
      BackupFS.Open p b name = .ok (newBackupFile name f b)) ∧
    (∀ e, p.openFile name = .error e → e.isNotExist = true →
      BackupFS.Open p b name = (b.openFile name).map (fun f => newBackupFile name f b)) ∧
    (∀ e, p.openFile name = .error e → e.isNotExist = false →
      BackupFS.Open p b name = .error e) ∧
    (∀ st, p.stat name = .ok st → BackupFS.Stat p b name = .ok st) ∧
    (∀ e, p.stat name = .error e → e.isNotExist = true →
      BackupFS.Stat p b name = b.stat name) ∧
    (∀ e, p.stat name = .error e → e.isNotExist = false →
      BackupFS.Stat p b name = .error e) ∧
    (∀ d, p.readFile name = .ok d → BackupFS.ReadFile p b name = .ok d) ∧
    (∀ e, p.readFile name = .error e → e.isNotExist = true →
      BackupFS.ReadFile p b name = b.readFile name) ∧
    (∀ e, p.readFile name = .error e → e.isNotExist = false →
      BackupFS.ReadFile p b name = .error e) := by
  refine ⟨?_, ?_, ?_, ?_, ?_, ?_, ?_, ?_, ?_⟩
  · intro f hf
    rw [BackupFS.Open, hf]
  · intro e he hne
    rw [BackupFS.Open, he]
    cases hb : b.openFile name <;> simp [hne, hb, Except.map]
  · intro e he hne
    rw [BackupFS.Open, he]
    simp [hne]
  · intro st hst
    rw [BackupFS.Stat, hst]
  · intro e he hne
    rw [BackupFS.Stat, he]
    simp [hne]
  · intro e he hne
    rw [BackupFS.Stat, he]
    simp [hne]
  · intro d hd
    rw [BackupFS.ReadFile, hd]
  · intro e he hne
    rw [BackupFS.ReadFile, he]
    simp [hne]
  · intro e he hne
    rw [BackupFS.ReadFile, he]
    simp [hne]

/-- A filesystem with nothing in it: every capability reports not-found
(and `Glob`, which never reports not-found for an empty match, returns
an empty list). -/
def emptyFS : FSys :=
  { openFile := fun _ => .error .notExist
    stat := fun _ => .error .notExist
    readFile := fun _ => .error .notExist
    readDir := fun _ => .error .notExist
    glob := fun _ => .ok [] }

/-- A snapshot filesystem holding a single file used by the witnesses. -/
def oneFileFS : FSys :=
  { openFile := fun n =>
      if n = "f.txt".toList then .ok ⟨.ok ⟨"f.txt".toList, 2, false⟩, [7, 8]⟩
      else .error .notExist
    stat := fun n =>
      if n = "f.txt".toList then .ok ⟨"f.txt".toList, 2, false⟩
      else .error .notExist
    readFile := fun n =>
      if n = "f.txt".toList then .ok [7, 8] else .error .notExist
    readDir := fun _ => .error .notExist
    glob := fun _ => .ok ["f.txt".toList] }

/-- C3 witness: with an empty primary and a one-file snapshot, `Open`
falls back to the snapshot's open result. -/
theorem backupfs_open_stat_readfile_fallback_witness :
    BackupFS.Open emptyFS oneFileFS ("f.txt".toList) =
      (oneFileFS.openFile ("f.txt".toList)).map
        (fun f => newBackupFile ("f.txt".toList) f oneFileFS) :=
  (backupfs_open_stat_readfile_fallback emptyFS oneFileFS _).2.1 .notExist rfl rfl

/-- C4: `BackupFS.ReadDir` reads the directory from both sides, tolerates a
not-found from one side only when the other succeeds (not-found from both,
or any other error from either side, propagates), concatenates primary
entries before snapshot entries, stable-sorts by name and collapses
consecutive duplicate names keeping the first occurrence — so for every
name the surviving entry is the *first* entry of the primary-first
concatenation with that name: the primary wins every tie. -/
theorem backupfs_readdir_merge (p b : FSys) (name : List Char) :
    (∀ e, p.readDir name = .error e → e.isNotExist = false →
      BackupFS.ReadDir p b name = .error e) ∧
    (∀ e e2, p.readDir name = .error e → e.isNotExist = true →
      b.readDir name = .error e2 → BackupFS.ReadDir p b name = .error e2) ∧
    (∀ e rc, p.readDir name = .error e → e.isNotExist = true →
      b.readDir name = .ok rc →
      BackupFS.ReadDir p b name = .ok (uniqueDirEntry (rc.mergeSort entryLe))) ∧
    (∀ r e2, p.readDir name = .ok r → b.readDir name = .error e2 →
      e2.isNotExist = true →
      BackupFS.ReadDir p b name = .ok (uniqueDirEntry (r.mergeSort entryLe))) ∧
    (∀ r e2, p.readDir name = .ok r → b.readDir name = .error e2 →
      e2.isNotExist = false → BackupFS.ReadDir p b name = .error e2) ∧
    (∀ r rc, p.readDir name = .ok r → b.readDir name = .ok rc →
      BackupFS.ReadDir p b name = .ok (uniqueDirEntry ((r ++ rc).mergeSort entryLe)) ∧
      ∀ n : List Char,
        (uniqueDirEntry ((r ++ rc).mergeSort entryLe)).filter
            (fun x => decide (x.name = n)) =
          ((r ++ rc).filter (fun x => decide (x.name = n))).take 1) := by
  refine ⟨?_, ?_, ?_, ?_, ?_, ?_⟩
  · intro e he hne
    rw [BackupFS.ReadDir, he]
    simp [hne]
  · intro e e2 he hne hb
    rw [BackupFS.ReadDir, he]
    simp [hne, hb]
  · intro e rc he hne hb
    rw [BackupFS.ReadDir, he]
    simp [hne, hb]
  · intro r e2 hp hb hne
    rw [BackupFS.ReadDir, hp, hb]
    simp [hne]
  · intro r e2 hp hb hne
    rw [BackupFS.ReadDir, hp, hb]
    simp [hne]
  · intro r rc hp hb
    refine ⟨by rw [BackupFS.ReadDir, hp, hb], ?_⟩
    intro n
    exact collapse_mergeSort_filter DirEntry.name (r ++ rc) n

/-- Concrete directory fixtures for the C4 witness: the spec's example —
primary `[a, b]`, snapshot `[b, c]`, with the two `b` entries
distinguishable by their `id`. -/
def entA : DirEntry := ⟨"a".toList, false, 0⟩

def entBP : DirEntry := ⟨"b".toList, false, 1⟩

def entBS : DirEntry := ⟨"b".toList, false, 2⟩

def entC : DirEntry := ⟨"c".toList, false, 3⟩

def dirPrimaryFS : FSys :=
  { emptyFS with readDir := fun _ => .ok [entA, entBP] }

def dirSnapshotFS : FSys :=
  { emptyFS with readDir := fun _ => .ok [entBS, entC] }

/-- C4 witness: primary `[a, b]` + snapshot `[b, c]` merge to `[a, b, c]`
with `b` taken from the primary (`id = 1`). -/
theorem backupfs_readdir_merge_witness :
    BackupFS.ReadDir dirPrimaryFS dirSnapshotFS ("d".toList) =
      .ok [entA, entBP, entC] := by
  have h := ((backupfs_readdir_merge dirPrimaryFS dirSnapshotFS ("d".toList)).2.2.2.2.2
    [entA, entBP] [entBS, entC] rfl rfl).1
  rw [h]
  have hs : (([entA, entBP] ++ [entBS, entC]).mergeSort entryLe) =
      [entA, entBP, entBS, entC] := by
    have h1 : entryLe entA entBS = true := by decide
    have h2 : entryLe entBP entBS = true := by decide
    have h3 : entryLe entA entBP = true := by decide
    have h4 : entryLe entBS entC = true := by decide
    simp [List.mergeSort, List.merge, h1, h2, h3, h4]
  rw [hs]
  decide

/-- Fixtures refuting C7: the primary glob succeeds with `[x]` while the
snapshot holds `[y]`. -/
def globPrimaryFS : FSys :=
  { emptyFS with glob := fun _ => .ok ["x".toList] }

def globSnapshotFS : FSys :=
  { emptyFS with glob := fun _ => .ok ["y".toList] }

/-- C7 counterexample: although the primary's `Glob` succeeds (with `[x]`),
`BackupFS.Glob` still consults the snapshot and returns the merged list
`[x, y]`, not the primary's matches. -/
theorem backupfs_glob_fallback_cex :
    BackupFS.Glob globPrimaryFS globSnapshotFS ("p".toList) =
      .ok ["x".toList, "y".toList] ∧
    globPrimaryFS.glob ("p".toList) = .ok ["x".toList] ∧
    (["x".toList, "y".toList] : List (List Char)) ≠ ["x".toList] := by
  refine ⟨?_, rfl, by decide⟩
  have hs : ((["x".toList] ++ ["y".toList]).mergeSort nameLe) =
      ["x".toList, "y".toList] := by
    have hxy : nameLe ['x'] ['y'] = true := by decide
    simp [List.mergeSort, List.merge, hxy]
  rw [show BackupFS.Glob globPrimaryFS globSnapshotFS ("p".toList) =
      .ok (uniqueStrings ((["x".toList] ++ ["y".toList]).mergeSort nameLe)) from rfl, hs]
  decide

/-- C7 (amended): `BackupFS.Glob` does *not* follow the `Stat`/`ReadFile`
fallback order. It always globs both the primary and the snapshot; any error
from either side (not-found included) propagates; and on success it returns
the primary-first concatenation, sorted with consecutive duplicates
collapsed — the sorted union of the two match lists. -/
theorem backupfs_glob_merges (p b : FSys) (pattern : List Char) :
    (∀ e, p.glob pattern = .error e → BackupFS.Glob p b pattern = .error e) ∧
    (∀ r e, p.glob pattern = .ok r → b.glob pattern = .error e →
      BackupFS.Glob p b pattern = .error e) ∧
    (∀ r rc, p.glob pattern = .ok r → b.glob pattern = .ok rc →
      BackupFS.Glob p b pattern = .ok (uniqueStrings ((r ++ rc).mergeSort nameLe)) ∧
      ∀ x, x ∈ uniqueStrings ((r ++ rc).mergeSort nameLe) ↔ (x ∈ r ∨ x ∈ rc)) := by
  refine ⟨?_, ?_, ?_⟩
  · intro e he
    rw [BackupFS.Glob, he]
  · intro r e hp hb
    rw [BackupFS.Glob, hp, hb]
  · intro r rc hp hb
    refine ⟨by rw [BackupFS.Glob, hp, hb], ?_⟩
    intro x
    rw [mem_uniqueStrings_mergeSort, List.mem_append]

/-- C7 amended-claim witness at the counterexample fixtures. -/
theorem backupfs_glob_merges_witness :
    BackupFS.Glob globPrimaryFS globSnapshotFS ("p".toList) =
      .ok (uniqueStrings ((["x".toList] ++ ["y".toList]).mergeSort nameLe)) :=
  ((backupfs_glob_merges globPrimaryFS globSnapshotFS ("p".toList)).2.2
    ["x".toList] ["y".toList] rfl rfl).1

/-! ## NewBackupFS destination validation (`backupfs.go` lines 49-53, 252-267)

`NewBackupFS` first applies `filepath.Clean` to the destination and only then
runs `validateDir`; validation failure aborts construction (with
`errors.New("unsupported directory")`) before any copying. The copy itself
and the TTL deletion are operating-system I/O and are outside this model.
`os.PathSeparator` is `'/'` (the package's Unix build). -/

/-- Split a path on `'/'`. -/
def splitSlashes : List Char → List (List Char)
  | [] => [[]]
  | c :: rest =>
    match splitSlashes rest with
    | [] => [[]]
    | p :: ps => if c = '/' then [] :: p :: ps else (c :: p) :: ps

/-- Modelled from the contract of Go `path/filepath.Clean` (the external
`path/filepath` standard library): one element step of the lexical cleaning —
drop empty and `.` elements; `..` pops the previous element unless the output
is empty or already ends in `..`, is dropped at the root, and is kept in a
relative path. -/
def cleanStep (rooted : Bool) (out : List (List Char)) (e : List Char) :
    List (List Char) :=
  if e = [] ∨ e = ['.'] then out
  else if e = ['.', '.'] then
    if out ≠ [] ∧ out.getLast? ≠ some ['.', '.'] then out.dropLast
    else if rooted then out
    else out ++ [['.', '.']]
  else out ++ [e]

/-- Join cleaned elements with `'/'`. -/
def joinSlashes : List (List Char) → List Char
  | [] => []
  | [e] => e
  | e :: rest => e ++ '/' :: joinSlashes rest

/-- Modelled from the contract of Go `path/filepath.Clean` with separator
`'/'`: empty becomes `.`, elements are processed left to right with
`cleanStep`, a rooted result keeps its leading `/` (collapsing to `/` when
nothing remains), a relative result collapsing to nothing becomes `.`. -/
def cleanPath (s : List Char) : List Char :=
  if s = [] then ['.']
  else
    let rooted := s.headD ' ' = '/'
    let out := (splitSlashes s).foldl (cleanStep rooted) []
    if rooted then '/' :: joinSlashes out
    else if joinSlashes out = [] then ['.'] else joinSlashes out

/-- `validateDir` (`backupfs.go` lines 252-267): reject `""`, `"."`, `".."`,
`"/"`, `"./"`, `"/."`, and anything ending in `"/.."`. -/
def validateDir (dir : List Char) : Bool :=
  if dir = [] ∨ dir = ['.'] ∨ dir = ['.', '.'] ∨ dir = ['/'] ∨
      dir = ['.', '/'] ∨ dir = ['/', '.'] then false
  else !(['/', '.', '.'].isSuffixOf dir)

/-- The `NewBackupFS` validation gate (`backupfs.go` lines 50-53):
`dir = filepath.Clean(dir)` followed by `validateDir(dir)`; `false` means
construction returns the validation error before attempting any copy. -/
def NewBackupFS.validates (dir : List Char) : Bool :=
  validateDir (cleanPath dir)

/-- C8 counterexample: `"a/b/.."` ends in separator + `..`, yet
`NewBackupFS` accepts it — `filepath.Clean` reduces it to `"a"` before
`validateDir` runs, so no validation error is raised, contrary to the claim
that *any* path ending in separator+`..` fails validation. -/
theorem newbackupfs_validate_cex :
    NewBackupFS.validates ("a/b/..".toList) = true ∧
    (['/', '.', '.'].isSuffixOf ("a/b/..".toList)) = true ∧
    cleanPath ("a/b/..".toList) = "a".toList := by
  decide

/-- C8 (amended): construction fails the validation gate — before any copy —
for the empty string, `.`, `..`, the bare separator, the separator-prefixed
and separator-suffixed current/parent-directory markers, and every path that
*still* ends in separator+`..` after lexical cleaning (such as `../..`);
a path whose trailing `..` is eliminated by `filepath.Clean` (such as
`a/b/..`, which cleans to `a`) passes validation. -/
theorem newbackupfs_validate (dir : List Char) :
    NewBackupFS.validates [] = false ∧
    NewBackupFS.validates (".".toList) = false ∧
    NewBackupFS.validates ("..".toList) = false ∧
    NewBackupFS.validates ("/".toList) = false ∧
    NewBackupFS.validates ("./".toList) = false ∧
    NewBackupFS.validates ("/.".toList) = false ∧
    NewBackupFS.validates ("../".toList) = false ∧
    NewBackupFS.validates ("/..".toList) = false ∧
    (['/', '.', '.'].isSuffixOf (cleanPath dir) = true →
      NewBackupFS.validates dir = false) := by
  refine ⟨by decide, by decide, by decide, by decide, by decide, by decide,
    by decide, by decide, ?_⟩
  intro hsuf
  rw [NewBackupFS.validates, validateDir]
  split
  · rfl
  · rw [hsuf]
    rfl

/-- C8 witness: `"../.."` still ends in `"/.."` after cleaning, so the gate
rejects it. -/
theorem newbackupfs_validate_witness :
    NewBackupFS.validates ("../..".toList) = false :=
  (newbackupfs_validate ("../..".toList)).2.2.2.2.2.2.2.2 (by decide)

/-! ## HashFS (`hashfs.go`)

`canonicalName` splits the final path segment on `'.'`, picks a candidate
hash part, and rebuilds the filename without an accepted candidate; name and
hash-token strings are `List Char` and the `hashes` cache is threaded
explicitly. -/

/-- Prepend a character to the first part of a split (helper for
`splitDots`/`pathSplit`). -/
def consHead (c : Char) : List (List Char) → List (List Char)
  | [] => [[c]]
  | p :: ps => (c :: p) :: ps

/-- `strings.Split(f, ".")`. -/
def splitDots : List Char → List (List Char)
  | [] => [[]]
  | c :: rest =>
    if c = '.' then [] :: splitDots rest else consHead c (splitDots rest)

/-- Parts after the first, each preceded by the dot the loop re-adds. -/
def joinRest : List (List Char) → List Char
  | [] => []
  | p :: ps => '.' :: (p ++ joinRest ps)

/-- Dot-join of a part list (the loop's rebuild of `f` when nothing is
skipped). -/
def joinParts : List (List Char) → List Char
  | [] => []
  | p :: ps => p ++ joinRest ps

/-- `path.Split(name)`: everything up to and including the final slash, and
the slash-free remainder. -/
def pathSplit : List Char → List Char × List Char
  | [] => ([], [])
  | c :: rest =>
    let p := pathSplit rest
    if p.1 = [] then
      if c = '/' then (['/'], p.2) else ([], c :: p.2)
    else (c :: p.1, p.2)

/-- `strings.LastIndex(f, ".")`, as `none` instead of `-1`. -/
def lastDotIdx : List Char → Option Nat
  | [] => none
  | c :: rest =>
    if (lastDotIdx rest).isSome then (lastDotIdx rest).map (· + 1)
    else if c = '.' then some 0 else none

/-! ### Facts about the string helpers -/

theorem splitDots_ne_nil (s : List Char) : splitDots s ≠ [] := by
  cases s with
  | nil => simp [splitDots]
  | cons c rest =>
    rw [splitDots]
    by_cases hc : c = '.'
    · simp [hc]
    · rw [if_neg hc]
      rcases h : splitDots rest with _ | ⟨p, ps⟩ <;> simp [consHead]

theorem joinParts_splitDots (s : List Char) : joinParts (splitDots s) = s := by
  induction s with
  | nil => rfl
  | cons c rest ih =>
    rw [splitDots]
    by_cases hc : c = '.'
    · rw [if_pos hc, hc]
      rcases h : splitDots rest with _ | ⟨p, ps⟩
      · exact absurd h (splitDots_ne_nil rest)
      · rw [h] at ih
        simp only [joinParts, joinRest, List.nil_append]
        rw [joinParts] at ih
        rw [ih]
    · rw [if_neg hc]
      rcases h : splitDots rest with _ | ⟨p, ps⟩
      · exact absurd h (splitDots_ne_nil rest)
      · rw [h] at ih
        simp only [consHead, joinParts, List.cons_append]
        rw [joinParts] at ih
        rw [ih]

theorem splitDots_parts_dotFree (s : List Char) :
    ∀ p ∈ splitDots s, '.' ∉ p := by
  induction s with
  | nil =>
    intro p hp
    simp [splitDots] at hp
    simp [hp]
  | cons c rest ih =>
    intro p hp
    rw [splitDots] at hp
    by_cases hc : c = '.'
    · rw [if_pos hc] at hp
      rcases hp with _ | ⟨_, hp⟩
      · simp
      · exact ih p hp
    · rw [if_neg hc] at hp
      rcases h : splitDots rest with _ | ⟨q, qs⟩
      · exact absurd h (splitDots_ne_nil rest)
      · rw [h] at hp ih
        simp only [consHead] at hp
        rcases hp with _ | ⟨_, hp⟩
        · intro hmem
          rcases hmem with _ | ⟨_, hmem⟩
          · exact hc rfl
          · exact ih q (List.mem_cons_self _ _) hmem
        · exact ih p (List.mem_cons_of_mem _ hp)

theorem splitDots_parts_chars (s : List Char) :
    ∀ p ∈ splitDots s, ∀ c ∈ p, c ∈ s := by
  induction s with
  | nil =>
    intro p hp
    simp [splitDots] at hp
    simp [hp]
  | cons a rest ih =>
    intro p hp c hc
    rw [splitDots] at hp
    by_cases ha : a = '.'
    · rw [if_pos ha] at hp
      rcases hp with _ | ⟨_, hp⟩
      · cases hc
      · exact List.mem_cons_of_mem _ (ih p hp c hc)
    · rw [if_neg ha] at hp
      rcases h : splitDots rest with _ | ⟨q, qs⟩
      · exact absurd h (splitDots_ne_nil rest)
      · rw [h] at hp ih
        simp only [consHead] at hp
        rcases hp with _ | ⟨_, hp⟩
        · rcases hc with _ | ⟨_, hc⟩
          · exact List.mem_cons_self _ _
          · exact List.mem_cons_of_mem _ (ih q (List.mem_cons_self _ _) c hc)
        · exact List.mem_cons_of_mem _ (ih p (List.mem_cons_of_mem _ hp) c hc)

theorem splitDots_append_dot (u v : List Char) :
    splitDots (u ++ '.' :: v) = splitDots u ++ splitDots v := by
  induction u with
  | nil => simp [splitDots]
  | cons c u ih =>
    rw [List.cons_append, splitDots, ih, splitDots]
    by_cases hc : c = '.'
    · simp [hc]
    · rw [if_neg hc, if_neg hc]
      rcases h : splitDots u with _ | ⟨p, ps⟩
      · exact absurd h (splitDots_ne_nil u)
      · simp [consHead]

theorem splitDots_dotFree (s : List Char) (hs : '.' ∉ s) :
    splitDots s = [s] := by
  induction s with
  | nil => rfl
  | cons c rest ih =>
    have hc : c ≠ '.' := fun h => hs (h ▸ List.mem_cons_self _ _)
    have hrest : '.' ∉ rest := fun h => hs (List.mem_cons_of_mem _ h)
    rw [splitDots, if_neg hc, ih hrest]
    simp [consHead]

theorem joinRest_append (xs ys : List (List Char)) :
    joinRest (xs ++ ys) = joinRest xs ++ joinRest ys := by
  induction xs with
  | nil => rfl
  | cons p ps ih => simp [joinRest, ih]

theorem joinParts_append (xs ys : List (List Char)) (hxs : xs ≠ []) :
    joinParts (xs ++ ys) = joinParts xs ++ joinRest ys := by
  cases xs with
  | nil => exact absurd rfl hxs
  | cons p ps => simp [joinParts, joinRest_append]

theorem pathSplit_append_eq (s : List Char) :
    (pathSplit s).1 ++ (pathSplit s).2 = s := by
  induction s with
  | nil => rfl
  | cons c rest ih =>
    simp only [pathSplit]
    by_cases h1 : (pathSplit rest).1 = []
    · rw [h1] at ih
      rw [List.nil_append] at ih
      by_cases hc : c = '/'
      · simp [h1, hc, ih]
      · simp [h1, hc, ih]
    · simp only [if_neg h1, List.cons_append, ih]

theorem pathSplit_snd_noSlash (s : List Char) : '/' ∉ (pathSplit s).2 := by
  induction s with
  | nil => simp [pathSplit]
  | cons c rest ih =>
    simp only [pathSplit]
    by_cases h1 : (pathSplit rest).1 = []
    · by_cases hc : c = '/'
      · simpa [h1, hc] using ih
      · simp only [if_pos h1, if_neg hc]
        intro hmem
        rcases hmem with _ | ⟨_, hmem⟩
        · exact hc rfl
        · exact ih hmem
    · simpa [h1] using ih

theorem pathSplit_fst_shape (s : List Char) :
    (pathSplit s).1 = [] ∨ (pathSplit s).1.getLast? = some '/' := by
  induction s with
  | nil => left; rfl
  | cons c rest ih =>
    simp only [pathSplit]
    by_cases h1 : (pathSplit rest).1 = []
    · by_cases hc : c = '/'
      · right; simp [h1, hc]
      · left; simp [h1, hc]
    · right
      rcases ih with h | h
      · exact absurd h h1
      · simp only [if_neg h1]
        rcases he : (pathSplit rest).1 with _ | ⟨x, xs⟩
        · exact absurd he h1
        · rw [he] at h
          rw [List.getLast?_cons_cons]
          exact h

theorem pathSplit_noSlash (g : List Char) (hg : '/' ∉ g) :
    pathSplit g = ([], g) := by
  induction g with
  | nil => rfl
  | cons c rest ih =>
    have hc : c ≠ '/' := fun h => hg (h ▸ List.mem_cons_self _ _)
    have hrest : '/' ∉ rest := fun h => hg (List.mem_cons_of_mem _ h)
    simp [pathSplit, ih hrest, hc]

theorem pathSplit_cons (c : Char) (rest : List Char) :
    pathSplit (c :: rest) =
      if (pathSplit rest).1 = [] then
        if c = '/' then (['/'], (pathSplit rest).2)
        else ([], c :: (pathSplit rest).2)
      else (c :: (pathSplit rest).1, (pathSplit rest).2) := rfl

theorem pathSplit_append (d g : List Char) (hd : d.getLast? = some '/')
    (hg : '/' ∉ g) : pathSplit (d ++ g) = (d, g) := by
  induction d with
  | nil => simp at hd
  | cons c d2 ih =>
    cases d2 with
    | nil =>
      simp only [List.getLast?_singleton, Option.some_inj] at hd
      subst hd
      simp [pathSplit_cons, pathSplit_noSlash g hg]
    | cons x xs =>
      rw [List.getLast?_cons_cons] at hd
      have ih2 := ih hd
      rw [List.cons_append, pathSplit_cons, ih2]
      simp

theorem pathSplit_resplit (s g : List Char) (hg : '/' ∉ g) :
    pathSplit ((pathSplit s).1 ++ g) = ((pathSplit s).1, g) := by
  rcases pathSplit_fst_shape s with h | h
  · rw [h, List.nil_append, pathSplit_noSlash g hg]
  · exact pathSplit_append _ g h hg

theorem lastDotIdx_none_iff (f : List Char) :
    lastDotIdx f = none ↔ '.' ∉ f := by
  induction f with
  | nil => simp [lastDotIdx]
  | cons c rest ih =>
    rw [lastDotIdx]
    rcases hr : lastDotIdx rest with _ | j
    · rw [hr] at ih
      by_cases hc : c = '.'
      · simp [hc]
      · simp [hc, ih.mp rfl, Ne.symm hc]
    · have hdot : '.' ∈ rest := by
        by_contra hnot
        rw [ih.mpr hnot] at hr
        cases hr
      simp [hr, hdot]

theorem lastDotIdx_append (u v : List Char) (hv : '.' ∉ v) :
    lastDotIdx (u ++ '.' :: v) = some u.length := by
  induction u with
  | nil =>
    rw [List.nil_append, lastDotIdx, (lastDotIdx_none_iff v).mpr hv]
    simp
  | cons c u2 ih =>
    rw [List.cons_append, lastDotIdx, ih]
    simp

theorem lastDotIdx_some (f : List Char) (i : Nat) (h : lastDotIdx f = some i) :
    ∃ u v, f = u ++ '.' :: v ∧ u.length = i ∧ '.' ∉ v := by
  induction f generalizing i with
  | nil => cases h
  | cons c rest ih =>
    rw [lastDotIdx] at h
    rcases hr : lastDotIdx rest with _ | j
    · rw [hr] at h
      simp only [Option.isSome_none, Bool.false_eq_true, if_false] at h
      by_cases hc : c = '.'
      · rw [if_pos hc] at h
        injection h with h0
        refine ⟨[], rest, by simp [hc], ?_, ?_⟩
        · simp only [List.length_nil]
          exact h0
        · exact (lastDotIdx_none_iff rest).mp hr
      · rw [if_neg hc] at h
        cases h
    · rw [hr] at h
      simp only [Option.isSome_some, if_true, Option.map_some] at h
      injection h with h0
      obtain ⟨u, v, hf, hlen, hv⟩ := ih j hr
      refine ⟨c :: u, v, by rw [hf, List.cons_append], ?_, hv⟩
      rw [List.length_cons, hlen]
      exact h0

/-- The rebuilding loop of `canonicalName` (`hashfs.go` lines 154-164):
state `(f, hashFromName)`; the part at index `k` is recorded and skipped when
`IsHash` accepts it, every other part is appended, preceded by a dot unless
it is the part at index 0. -/
def cnLoop (isHash : List Char → Bool) (k : Nat) :
    List (List Char) → Nat → List Char × List Char → List Char × List Char
  | [], _, acc => acc
  | p :: rest, i, acc =>
    if i = k ∧ isHash p then cnLoop isHash k rest (i + 1) (acc.1, p)
    else cnLoop isHash k rest (i + 1)
      (acc.1 ++ (if i ≠ 0 then ['.'] else []) ++ p, acc.2)

/-- The candidate index rule of `canonicalName` (lines 148-153): `index` is
2 when `l > 2 && !(l == 3 && parts[0] == "")`, else 1, and the candidate
sits at `l - index`. -/
def candIdx (parts : List (List Char)) : Nat :=
  if 2 < parts.length ∧ ¬(parts.length = 3 ∧ parts.headD [] = []) then
    parts.length - 2
  else parts.length - 1

/-- The name-parsing part of `canonicalName` (lines 145-166): split off the
directory, split the final segment on dots, rebuild with an accepted
candidate removed. Returns `(canonical name before hashing, hashFromName)`. -/
def parseName (isHash : List Char → Bool) (name : List Char) :
    List Char × List Char :=
  let df := pathSplit name
  let parts := splitDots df.2
  let fb := cnLoop isHash (candIdx parts) parts 0 ([], [])
  (df.1 ++ fb.1, fb.2)

/-- `HashFS.hashedPath` (lines 193-206): empty hash returns the name
unchanged; otherwise insert `"." + hash` before the last dot of the final
segment when that dot's index is positive, else append `"." + hash`. -/
def HashFS.hashedPath (name hash : List Char) : List Char :=
  if hash = [] then name
  else
    let df := pathSplit name
    match lastDotIdx df.2 with
    | some i =>
      if 0 < i then df.1 ++ (df.2.take i ++ '.' :: (hash ++ df.2.drop i))
      else df.1 ++ (df.2 ++ '.' :: hash)
    | none => df.1 ++ (df.2 ++ '.' :: hash)

/-! ### Characterizing the parse loop (C5) -/

theorem cnLoop_no_skip (isHash : List Char → Bool) (k : Nat) :
    ∀ (ps : List (List Char)) (i : Nat) (acc : List Char × List Char),
    1 ≤ i →
    (∀ j, j < ps.length → i + j = k → isHash (ps.getD j []) = false) →
    cnLoop isHash k ps i acc = (acc.1 ++ joinRest ps, acc.2) := by
  intro ps
  induction ps with
  | nil => intro i acc _ _; simp [cnLoop, joinRest]
  | cons p rest ih =>
    intro i acc hi hno
    have hnotskip : ¬(i = k ∧ isHash p = true) := by
      rintro ⟨hik, hacc⟩
      have := hno 0 (by simp) (by omega)
      simp only [List.getD_cons_zero] at this
      rw [this] at hacc
      cases hacc
    rw [cnLoop, if_neg hnotskip,
      ih (i + 1) _ (by omega) (fun j hj hjk => by
        have := hno (j + 1) (by simpa using hj) (by omega)
        simpa using this)]
    have hine : i ≠ 0 := by omega
    simp [hine, joinRest]

theorem cnLoop_mid (isHash : List Char → Bool) (k : Nat) :
    ∀ (ps : List (List Char)) (i : Nat) (acc : List Char × List Char),
    1 ≤ i → i ≤ k → k - i < ps.length →
    isHash (ps.getD (k - i) []) = true →
    cnLoop isHash k ps i acc =
      (acc.1 ++ joinRest (ps.take (k - i)) ++ joinRest (ps.drop (k - i + 1)),
        ps.getD (k - i) []) := by
  intro ps
  induction ps with
  | nil => intro i acc _ _ h; simp at h
  | cons p rest ih =>
    intro i acc hi hik hlt hacc
    by_cases heq : i = k
    · have hk0 : k - i = 0 := by omega
      rw [hk0] at hacc ⊢
      simp only [List.getD_cons_zero] at hacc ⊢
      rw [cnLoop, if_pos ⟨heq, hacc⟩,
        cnLoop_no_skip isHash k rest (i + 1) _ (by omega)
          (fun j hj hjk => absurd hjk (by omega))]
      simp [joinRest]
    · have hik2 : i + 1 ≤ k := by omega
      have hpos : 1 ≤ k - i := by omega
      have hlt2 : k - i < rest.length + 1 := by simpa using hlt
      have hnotskip : ¬(i = k ∧ isHash p = true) := fun h => heq h.1
      have hgd : (p :: rest).getD (k - i) [] = rest.getD (k - i - 1) [] := by
        rcases hn : k - i with _ | m
        · omega
        · simp [hn]
      rw [cnLoop, if_neg hnotskip,
        ih (i + 1) _ (by omega) hik2 (by omega) (by
          have : k - (i + 1) = k - i - 1 := by omega
          rw [this]
          rw [hgd] at hacc
          exact hacc)]
      have hstep : k - (i + 1) = k - i - 1 := by omega
      have htake : (p :: rest).take (k - i) = p :: rest.take (k - i - 1) := by
        rcases hn : k - i with _ | m
        · omega
        · simp [hn]
      have hdrop : (p :: rest).drop (k - i + 1) = rest.drop (k - i - 1 + 1) := by
        have harith : k - i + 1 = (k - i - 1 + 1) + 1 := by omega
        rw [harith, List.drop_succ_cons]
      have hine : i ≠ 0 := by omega
      rw [hstep, hgd, htake, hdrop]
      simp [hine, joinRest]

theorem cnLoop_top (isHash : List Char → Bool) (k : Nat)
    (parts : List (List Char)) (hk : k < parts.length) :
    cnLoop isHash k parts 0 ([], []) =
      if isHash (parts.getD k []) = true then
        (joinParts (parts.take k) ++ joinRest (parts.drop (k + 1)),
          parts.getD k [])
      else (joinParts parts, []) := by
  cases parts with
  | nil => simp at hk
  | cons p rest =>
    by_cases hacc : isHash ((p :: rest).getD k []) = true
    · rw [if_pos hacc]
      cases k with
      | zero =>
        simp only [List.getD_cons_zero] at hacc ⊢
        rw [cnLoop, if_pos ⟨rfl, hacc⟩,
          cnLoop_no_skip isHash 0 rest 1 _ (by omega)
            (fun j hj hjk => absurd hjk (by omega))]
        simp [joinParts, joinRest]
      | succ m =>
        simp only [List.getD_cons_succ] at hacc ⊢
        have hm : m < rest.length := by simpa using hk
        rw [cnLoop, if_neg (by rintro ⟨h0, _⟩; cases h0)]
        have hmid := cnLoop_mid isHash (m + 1) rest 1
          (([] : List Char) ++ (if (0 : Nat) ≠ 0 then ['.'] else []) ++ p, ([] : List Char))
          (by omega) (by omega) (by simpa using hm) (by simpa using hacc)
        simp only [Nat.add_sub_cancel] at hmid
        rw [hmid]
        simp [joinParts]
    · rw [if_neg hacc]
      cases k with
      | zero =>
        simp only [List.getD_cons_zero] at hacc
        rw [cnLoop, if_neg (by rintro ⟨_, h⟩; exact hacc h),
          cnLoop_no_skip isHash 0 rest 1 _ (by omega)
            (fun j hj hjk => absurd hjk (by omega))]
        simp [joinParts]
      | succ m =>
        simp only [List.getD_cons_succ] at hacc
        rw [cnLoop, if_neg (by rintro ⟨h0, _⟩; cases h0),
          cnLoop_no_skip isHash (m + 1) rest 1 _ (by omega)
            (fun j hj hjk => by
              have hjm : j = m := by omega
              subst hjm
              exact Bool.not_eq_true _ ▸ (by simpa using hacc))]
        simp [joinParts]

theorem candIdx_lt (parts : List (List Char)) (h : parts ≠ []) :
    candIdx parts < parts.length := by
  have hpos : 0 < parts.length := List.length_pos.mpr h
  rw [candIdx]
  split <;> omega

theorem candIdx_pos (parts : List (List Char)) (h : 2 ≤ parts.length) :
    1 ≤ candIdx parts := by
  rw [candIdx]
  split <;> omega

theorem join_erase (parts : List (List Char)) (k : Nat) (hk : k < parts.length)
    (h1 : 1 ≤ k ∨ parts.length = 1) :
    joinParts (parts.take k) ++ joinRest (parts.drop (k + 1)) =
      joinParts (parts.eraseIdx k) := by
  rcases h1 with h1 | h1
  · have htne : parts.take k ≠ [] := by
      rw [ne_eq, List.take_eq_nil_iff]
      rintro (h | h)
      · omega
      · rw [h] at hk; simp at hk
    rw [List.eraseIdx_eq_take_drop_succ, joinParts_append _ _ htne]
  · have hk0 : k = 0 := by omega
    subst hk0
    rcases parts with _ | ⟨p, rest⟩
    · simp at hk
    · have hr : rest = [] := by
        have h2 := h1
        rw [List.length_cons] at h2
        exact List.length_eq_zero.mp (by omega)
      subst hr
      simp [joinParts, joinRest, List.eraseIdx]

/-- Parse characterization: name resolution splits the final path segment into dot-delimited
parts; the candidate is the second-to-last part when there are more than two
parts and it is not a dotfile with a single extension (exactly three parts
with an empty first part), otherwise the last part; the candidate is removed
(the remaining parts rejoined with dots, after the directory prefix) exactly
when `IsHash` accepts it, and otherwise the canonical name is the requested
name with no candidate token. -/
theorem parseName_eq (isHash : List Char → Bool)
    (name : List Char) :
    parseName isHash name =
      if isHash ((splitDots (pathSplit name).2).getD
          (candIdx (splitDots (pathSplit name).2)) []) = true then
        ((pathSplit name).1 ++
          joinParts ((splitDots (pathSplit name).2).eraseIdx
            (candIdx (splitDots (pathSplit name).2))),
          (splitDots (pathSplit name).2).getD
            (candIdx (splitDots (pathSplit name).2)) [])
      else (name, []) := by
  have hne := splitDots_ne_nil (pathSplit name).2
  have hk := candIdx_lt _ hne
  rw [parseName]
  rw [cnLoop_top isHash _ _ hk]
  by_cases hacc : isHash ((splitDots (pathSplit name).2).getD
      (candIdx (splitDots (pathSplit name).2)) []) = true
  · rw [if_pos hacc, if_pos hacc]
    have h1 : 1 ≤ candIdx (splitDots (pathSplit name).2) ∨
        (splitDots (pathSplit name).2).length = 1 := by
      rcases Nat.lt_or_ge (splitDots (pathSplit name).2).length 2 with h | h
      · right
        have := List.length_pos.mpr hne
        omega
      · exact Or.inl (candIdx_pos _ h)
    rw [join_erase _ _ hk h1]
  · rw [if_neg hacc, if_neg hacc]
    rw [joinParts_splitDots, pathSplit_append_eq]

/-- C5: name resolution splits the final path segment into dot-delimited
parts; if there are more than two parts and it is not the case that there
are exactly three parts with an empty first part, the candidate is the
second-to-last part, otherwise the last part; the candidate is removed to
form the canonical name exactly when `IsHash` accepts it, and otherwise the
canonical name equals the requested name with no candidate token. -/
theorem hashfs_canonicalname_rule (isHash : List Char → Bool)
    (name : List Char) :
    parseName isHash name =
      if isHash ((splitDots (pathSplit name).2).getD
          (candIdx (splitDots (pathSplit name).2)) []) = true then
        ((pathSplit name).1 ++
          joinParts ((splitDots (pathSplit name).2).eraseIdx
            (candIdx (splitDots (pathSplit name).2))),
          (splitDots (pathSplit name).2).getD
            (candIdx (splitDots (pathSplit name).2)) [])
      else (name, []) :=
  parseName_eq isHash name

/-- C9: public-name synthesis returns the name unchanged when the hash is
empty; otherwise, when the final segment has a trailing extension (a last
dot at a positive index — a dot at index 0 makes a dotfile, not an
extension), `"." + token` is inserted immediately before that extension, and
otherwise `"." + token` is appended to the name. -/
theorem hashfs_hashedpath_spec (name hash : List Char) :
    (hash = [] → HashFS.hashedPath name hash = name) ∧
    (hash ≠ [] →
      (∀ i, lastDotIdx (pathSplit name).2 = some i → 0 < i →
        HashFS.hashedPath name hash =
          (pathSplit name).1 ++
            ((pathSplit name).2.take i ++
              '.' :: (hash ++ (pathSplit name).2.drop i))) ∧
      ((lastDotIdx (pathSplit name).2 = none ∨
          lastDotIdx (pathSplit name).2 = some 0) →
        HashFS.hashedPath name hash = name ++ '.' :: hash)) := by
  constructor
  · intro h
    simp [HashFS.hashedPath, h]
  · intro hne
    constructor
    · intro i hi hpos
      rw [HashFS.hashedPath, if_neg hne]
      simp only [hi, hpos, if_pos]
    · intro hcase
      rcases hcase with hc | hc
      · rw [HashFS.hashedPath, if_neg hne]
        simp only [hc]
        rw [← List.append_assoc, pathSplit_append_eq]
      · rw [HashFS.hashedPath, if_neg hne]
        simp only [hc, Nat.lt_irrefl, if_neg, if_false]
        rw [← List.append_assoc, pathSplit_append_eq]

/-- C9 witness: inserting a token into `assets/main.css`. -/
theorem hashfs_hashedpath_spec_witness :
    HashFS.hashedPath ("assets/main.css".toList) ("8559e1".toList) =
      "assets/main.8559e1.css".toList := by
  have h := ((hashfs_hashedpath_spec ("assets/main.css".toList)
    ("8559e1".toList)).2 (by decide)).1 4 (by decide) (by decide)
  rw [h]
  decide

/-! ### The hash cache and `canonicalName` -/

/-- The `hashes` map of `HashFS` as an association list. -/
abbrev Cache : Type := List (List Char × List Char)

/-- Map lookup `h, ok := s.hashes[name]`. -/
def lookupCache : Cache → List Char → Option (List Char)
  | [], _ => none
  | (k, v) :: rest, n => if k = n then some v else lookupCache rest n

/-- Map insert `s.hashes[name] = h`. -/
def insertCache : Cache → List Char → List Char → Cache
  | [], n, h => [(n, h)]
  | (k, v) :: rest, n, h =>
    if k = n then (k, h) :: rest else (k, v) :: insertCache rest n h

/-- The cache-miss body of `HashFS.hash` (`hashfs.go` lines 216-238): open
the file (wrapping failure as `"open file"`), `Stat` the handle (wrapping as
`"stat file"`), return `fs.ErrNotExist` for directories, hash the content
(wrapping as `"hash file"`). -/
def hashPure (fs : FSys) (hasher : HasherI) (name : List Char) :
    Except Err (List Char) :=
  match fs.openFile name with
  | .error e => .error (.wrap .openStage e)
  | .ok file =>
    match file.stat with
    | .error e => .error (.wrap .statStage e)
    | .ok info =>
      if info.isDir then .error .notExist
      else
        match hasher.hashF file.content with
        | .error e => .error (.wrap .hashStage e)
        | .ok h => .ok h

/-- `HashFS.hash` (lines 208-239): consult the cache under the read lock; on
a miss run the body and record a successful result under the write lock. -/
def hashC (fs : FSys) (hasher : HasherI) (cache : Cache) (name : List Char) :
    Except Err (List Char) × Cache :=
  match lookupCache cache name with
  | some h => (.ok h, cache)
  | none =>
    match hashPure fs hasher name with
    | .error e => (.error e, cache)
    | .ok h => (.ok h, insertCache cache name h)

/-- The tail of `canonicalName` (lines 179-190): when a candidate token was
extracted and disagrees with the computed hash, recompute the hash of the
literal requested name; a second disagreement returns the literal name with
that hash, agreement returns the literal name with an empty hash. -/
def cnFinish (fs : FSys) (hasher : HasherI) (cache : Cache)
    (name cn hfn h : List Char) :
    Except Err (List Char × List Char) × Cache :=
  if hfn ≠ [] ∧ hfn ≠ h then
    match hashC fs hasher cache name with
    | (.error e, c2) => (.error e, c2)
    | (.ok h2, c2) =>
      if hfn ≠ h2 then (.ok (name, h2), c2) else (.ok (name, []), c2)
  else (.ok (cn, h), cache)

/-- `HashFS.canonicalName` (lines 144-191): parse the name, hash the parsed
canonical name, fall back to hashing the literal requested name when the
parsed one does not exist, then reconcile with the candidate token. -/
def HashFS.canonicalName (fs : FSys) (hasher : HasherI) (cache : Cache)
    (name : List Char) : Except Err (List Char × List Char) × Cache :=
  let pr := parseName hasher.isHash name
  match hashC fs hasher cache pr.1 with
  | (.ok h, c1) => cnFinish fs hasher c1 name pr.1 pr.2 h
  | (.error e, c1) =>
    if e.isNotExist then
      match hashC fs hasher c1 name with
      | (.ok h, c2) => cnFinish fs hasher c2 name pr.1 pr.2 h
      | (.error e2, c2) => (.error e2, c2)
    else (.error e, c1)

/-- Cache-less `cnFinish`. -/
def cnFinishPure (fs : FSys) (hasher : HasherI) (name cn hfn h : List Char) :
    Except Err (List Char × List Char) :=
  if hfn ≠ [] ∧ hfn ≠ h then
    match hashPure fs hasher name with
    | .error e => .error e
    | .ok h2 => if hfn ≠ h2 then .ok (name, h2) else .ok (name, [])
  else .ok (cn, h)

/-- Cache-less `canonicalName`: the value `canonicalName` computes whenever
its cache agrees with the filesystem. -/
def canonicalPure (fs : FSys) (hasher : HasherI) (name : List Char) :
    Except Err (List Char × List Char) :=
  let pr := parseName hasher.isHash name
  match hashPure fs hasher pr.1 with
  | .ok h => cnFinishPure fs hasher name pr.1 pr.2 h
  | .error e =>
    if e.isNotExist then
      match hashPure fs hasher name with
      | .ok h => cnFinishPure fs hasher name pr.1 pr.2 h
      | .error e2 => .error e2
    else .error e

/-- `filepath.Base` (Unix), modelled from the `path/filepath` contract:
empty becomes `.`, trailing slashes are dropped, the final element is
returned, an all-slash path becomes `/`. -/
def filepathBase (s : List Char) : List Char :=
  if s = [] then ['.']
  else
    let s1 := (s.reverse.dropWhile (fun c => c = '/')).reverse
    if (pathSplit s1).2 = [] then ['/'] else (pathSplit s1).2

/-- `HashFS.Open` (lines 52-62): resolve; if a non-empty hash was computed
but the canonical name equals the requested name, fail as not-found; else
open the canonical name in the wrapped filesystem. -/
def HashFS.Open (fs : FSys) (hasher : HasherI) (cache : Cache)
    (name : List Char) : Except Err File × Cache :=
  match HashFS.canonicalName fs hasher cache name with
  | (.error e, c) => (.error e, c)
  | (.ok cnh, c) =>
    if cnh.2 ≠ [] ∧ cnh.1 = name then (.error .notExist, c)
    else (fs.openFile cnh.1, c)

/-- `HashFS.ReadFile` (lines 107-117): same gate, then
`fs.ReadFile(s.fsys, canonicalName)`. -/
def HashFS.ReadFile (fs : FSys) (hasher : HasherI) (cache : Cache)
    (name : List Char) : Except Err (List Nat) × Cache :=
  match HashFS.canonicalName fs hasher cache name with
  | (.error e, c) => (.error e, c)
  | (.ok cnh, c) =>
    if cnh.2 ≠ [] ∧ cnh.1 = name then (.error .notExist, c)
    else (fs.readFile cnh.1, c)

/-- `HashFS.Stat` (lines 119-133): same gate, then
`fs.Stat(s.fsys, canonicalName)` renamed to `filepath.Base(name)` by the
`fileInfo` wrapper. -/
def HashFS.Stat (fs : FSys) (hasher : HasherI) (cache : Cache)
    (name : List Char) : Except Err FInfo × Cache :=
  match HashFS.canonicalName fs hasher cache name with
  | (.error e, c) => (.error e, c)
  | (.ok cnh, c) =>
    if cnh.2 ≠ [] ∧ cnh.1 = name then (.error .notExist, c)
    else
      match fs.stat cnh.1 with
      | .error e => (.error e, c)
      | .ok i => (.ok ⟨filepathBase name, i.size, i.isDir⟩, c)

/-- `HashFS.HashedPath` (lines 135-142). -/
def HashFS.HashedPath (fs : FSys) (hasher : HasherI) (cache : Cache)
    (name : List Char) : Except Err (List Char) × Cache :=
  match HashFS.canonicalName fs hasher cache name with
  | (.error e, c) => (.error e, c)
  | (.ok cnh, c) => (.ok (HashFS.hashedPath cnh.1 cnh.2), c)

/-- C2: whenever resolution computes a non-empty hash and a canonical name
equal to the requested name (the caller asked for the bare un-hashed name of
a file that requires a hash), `Open`, `ReadFile` and `Stat` all fail with
`fs.ErrNotExist` instead of serving the file. -/
theorem hashfs_bare_name_not_served (fs : FSys) (hasher : HasherI)
    (cache : Cache) (name cn h : List Char) (c1 : Cache)
    (hres : HashFS.canonicalName fs hasher cache name = (.ok (cn, h), c1))
    (hh : h ≠ []) (heq : cn = name) :
    HashFS.Open fs hasher cache name = (.error .notExist, c1) ∧
    HashFS.ReadFile fs hasher cache name = (.error .notExist, c1) ∧
    HashFS.Stat fs hasher cache name = (.error .notExist, c1) := by
  refine ⟨?_, ?_, ?_⟩
  · simp [HashFS.Open, hres, hh, heq]
  · simp [HashFS.ReadFile, hres, hh, heq]
  · simp [HashFS.Stat, hres, hh, heq]

/-- A one-file filesystem whose single file needs a hash, for the C2
witness. -/
def cssFS : FSys :=
  { emptyFS with
    openFile := fun n =>
      if n = "main.css".toList then .ok ⟨.ok ⟨"main.css".toList, 1, false⟩, [3]⟩
      else .error .notExist }

/-- A hasher producing the two-character token `ab` (so `main.css` resolves
to itself with a non-empty hash). -/
def twoCharHasher : HasherI :=
  ⟨fun _ => .ok "ab".toList, fun t => t.length == 2⟩

/-- C2 witness: opening `main.css` by its bare canonical name fails
not-found even though the underlying file exists. -/
theorem hashfs_bare_name_not_served_witness :
    HashFS.Open cssFS twoCharHasher [] ("main.css".toList) =
      (.error .notExist, [("main.css".toList, "ab".toList)]) :=
  (hashfs_bare_name_not_served cssFS twoCharHasher [] ("main.css".toList)
    ("main.css".toList) ("ab".toList) [("main.css".toList, "ab".toList)]
    (by decide) (by decide) rfl).1

/-- C10: the hash cache changes only on a successful hash computation — any
failure (open, stat, directory, or hashing stage) leaves the cache exactly
as it was — and once an entry exists the cached token is returned with the
cache untouched, independently of the filesystem and hasher (no reopening or
re-hashing: the same result is produced for *any* `fs2`/`hasher2`). -/
theorem hashfs_cache_discipline (fs fs2 : FSys) (hasher hasher2 : HasherI)
    (cache : Cache) (name : List Char) :
    (∀ e c2, hashC fs hasher cache name = (.error e, c2) → c2 = cache) ∧
    (∀ h, lookupCache cache name = some h →
      hashC fs hasher cache name = (.ok h, cache) ∧
      hashC fs2 hasher2 cache name = (.ok h, cache)) := by
  constructor
  · intro e c2 hrun
    rw [hashC] at hrun
    cases hl : lookupCache cache name with
    | some h =>
      rw [hl] at hrun
      simp at hrun
    | none =>
      rw [hl] at hrun
      cases hp : hashPure fs hasher name with
      | error e2 =>
        rw [hp] at hrun
        simp only [Prod.mk.injEq] at hrun
        exact hrun.2.symm
      | ok h =>
        rw [hp] at hrun
        simp at hrun
  · intro h hl
    constructor <;> simp [hashC, hl]

/-- C10 witness: a failing hash (missing file) leaves the cache unchanged,
and an existing entry is served back unchanged from any filesystem. -/
theorem hashfs_cache_discipline_witness :
    ([("x".toList, "ab".toList)] : Cache) = [("x".toList, "ab".toList)] ∧
    hashC cssFS twoCharHasher [("x".toList, "ab".toList)] ("x".toList) =
      (.ok ("ab".toList), [("x".toList, "ab".toList)]) ∧
    hashC emptyFS twoCharHasher [("x".toList, "ab".toList)] ("x".toList) =
      (.ok ("ab".toList), [("x".toList, "ab".toList)]) := by
  have h1 := (hashfs_cache_discipline emptyFS emptyFS twoCharHasher
    twoCharHasher [("x".toList, "ab".toList)] ("missing".toList)).1
    (.wrap .openStage .notExist) [("x".toList, "ab".toList)] (by decide)
  have h2 := (hashfs_cache_discipline cssFS emptyFS twoCharHasher
    twoCharHasher [("x".toList, "ab".toList)] ("x".toList)).2
    ("ab".toList) (by decide)
  exact ⟨h1, h2.1, h2.2⟩

/-! ### Hasher sanity, cache consistency, and the pure/cached refinement -/

/-- A sane `Hasher` per the spec's token contract (§3): `IsHash` rejects the
empty string, and every token `Hash` produces is either empty (the degraded
case) or accepted by `IsHash` and free of `'.'` and `'/'` (fixed hexadecimal
alphabet). -/
def HasherOK (hasher : HasherI) : Prop :=
  hasher.isHash [] = false ∧
  ∀ c t, hasher.hashF c = .ok t →
    t = [] ∨ (hasher.isHash t = true ∧ '.' ∉ t ∧ '/' ∉ t)

/-- The cache agrees with the filesystem: every stored entry is what a fresh
hash computation would produce (the spec's immutable-content assumption). -/
def CacheOK (fs : FSys) (hasher : HasherI) (cache : Cache) : Prop :=
  ∀ n h, lookupCache cache n = some h → hashPure fs hasher n = .ok h

theorem cacheOK_nil (fs : FSys) (hasher : HasherI) :
    CacheOK fs hasher [] := by
  intro n h hl
  simp [lookupCache] at hl

theorem lookupCache_insertCache (cache : Cache) (n h m : List Char) :
    lookupCache (insertCache cache n h) m =
      if n = m then some h else lookupCache cache m := by
  induction cache with
  | nil =>
    by_cases hm : n = m <;> simp [insertCache, lookupCache, hm]
  | cons kv rest ih =>
    obtain ⟨k, v⟩ := kv
    rw [insertCache]
    by_cases hk : k = n
    · subst hk
      by_cases hm : k = m
      · subst hm
        simp [lookupCache]
      · simp [lookupCache, hm]
    · rw [if_neg hk, lookupCache, ih]
      by_cases hm : k = m
      · subst hm
        have hnm : n ≠ k := fun h2 => hk h2.symm
        simp [lookupCache, hnm]
      · simp [lookupCache, hm]

theorem cacheOK_insert {fs : FSys} {hasher : HasherI} {cache : Cache}
    {n h : List Char} (hOK : CacheOK fs hasher cache)
    (hh : hashPure fs hasher n = .ok h) :
    CacheOK fs hasher (insertCache cache n h) := by
  intro m hm hl
  rw [lookupCache_insertCache] at hl
  by_cases hnm : n = m
  · rw [if_pos hnm] at hl
    injection hl with hl
    subst hl
    rw [← hnm]
    exact hh
  · rw [if_neg hnm] at hl
    exact hOK m hm hl

theorem hashC_refine {fs : FSys} {hasher : HasherI} {cache : Cache}
    (hOK : CacheOK fs hasher cache) (n : List Char) :
    ∃ c2, hashC fs hasher cache n = (hashPure fs hasher n, c2) ∧
      CacheOK fs hasher c2 := by
  rw [hashC]
  cases hl : lookupCache cache n with
  | some h =>
    refine ⟨cache, ?_, hOK⟩
    rw [hOK n h hl]
  | none =>
    cases hp : hashPure fs hasher n with
    | error e => exact ⟨cache, rfl, hOK⟩
    | ok h => exact ⟨insertCache cache n h, rfl, cacheOK_insert hOK hp⟩

theorem cnFinish_refine {fs : FSys} {hasher : HasherI} {cache : Cache}
    (hOK : CacheOK fs hasher cache) (name cn hfn h : List Char) :
    ∃ c2, cnFinish fs hasher cache name cn hfn h =
      (cnFinishPure fs hasher name cn hfn h, c2) ∧ CacheOK fs hasher c2 := by
  rw [cnFinish, cnFinishPure]
  by_cases hcond : hfn ≠ [] ∧ hfn ≠ h
  · rw [if_pos hcond, if_pos hcond]
    obtain ⟨c2, he, hok2⟩ := hashC_refine hOK name
    rw [he]
    cases hp : hashPure fs hasher name with
    | error e => exact ⟨c2, rfl, hok2⟩
    | ok h2 =>
      by_cases h2c : hfn ≠ h2
      · refine ⟨c2, ?_, hok2⟩
        simp [h2c]
      · refine ⟨c2, ?_, hok2⟩
        simp [h2c]
  · rw [if_neg hcond, if_neg hcond]
    exact ⟨cache, rfl, hOK⟩

theorem canonicalName_refine {fs : FSys} {hasher : HasherI} {cache : Cache}
    (hOK : CacheOK fs hasher cache) (name : List Char) :
    ∃ c2, HashFS.canonicalName fs hasher cache name =
      (canonicalPure fs hasher name, c2) ∧ CacheOK fs hasher c2 := by
  rw [HashFS.canonicalName, canonicalPure]
  obtain ⟨c1, he1, hok1⟩ := hashC_refine hOK (parseName hasher.isHash name).1
  rw [he1]
  cases hp1 : hashPure fs hasher (parseName hasher.isHash name).1 with
  | ok h => exact cnFinish_refine hok1 name _ _ h
  | error e =>
    by_cases hne : e.isNotExist = true
    · obtain ⟨c2, he2, hok2⟩ := hashC_refine hok1 name
      simp only [hne, if_pos, he2]
      cases hp2 : hashPure fs hasher name with
      | ok h => exact cnFinish_refine hok2 name _ _ h
      | error e2 => exact ⟨c2, rfl, hok2⟩
    · simp only [hne, if_false, Bool.false_eq_true]
      exact ⟨c1, rfl, hok1⟩

theorem hashedPathTop_refine {fs : FSys} {hasher : HasherI} {cache : Cache}
    (hOK : CacheOK fs hasher cache) (name : List Char) :
    ∃ c2, HashFS.HashedPath fs hasher cache name =
      ((canonicalPure fs hasher name).map
        (fun cnh => HashFS.hashedPath cnh.1 cnh.2), c2) ∧
      CacheOK fs hasher c2 := by
  rw [HashFS.HashedPath]
  obtain ⟨c2, he, hok2⟩ := canonicalName_refine hOK name
  rw [he]
  cases hp : canonicalPure fs hasher name with
  | error e => exact ⟨c2, rfl, hok2⟩
  | ok cnh => exact ⟨c2, rfl, hok2⟩

theorem getD_append_len {α : Type} (u ys : List α) (d : α) :
    (u ++ ys).getD u.length d = ys.getD 0 d := by
  induction u with
  | nil => rfl
  | cons a u ih => simpa using ih

theorem eraseIdx_append_len {α : Type} (u ys : List α) :
    (u ++ ys).eraseIdx u.length = u ++ ys.eraseIdx 0 := by
  induction u with
  | nil => rfl
  | cons a u ih => simpa using ih

theorem headD_append_of_ne_nil {α : Type} (u ys : List α) (d : α)
    (hu : u ≠ []) : (u ++ ys).headD d = u.headD d := by
  cases u with
  | nil => exact absurd rfl hu
  | cons a u => rfl

theorem splitDots_len_one (u : List Char)
    (h : (splitDots u).length = 1) : splitDots u = [u] := by
  rcases he : splitDots u with _ | ⟨p, ps⟩
  · exact absurd he (splitDots_ne_nil u)
  · rw [he] at h
    simp only [List.length_cons, Nat.add_left_eq_self, List.length_eq_zero] at h
    subst h
    have hj := joinParts_splitDots u
    rw [he] at hj
    simp only [joinParts, joinRest, List.append_nil] at hj
    rw [hj]

theorem parseName_snd_nil {isHash : List Char → Bool} {name : List Char}
    (h0 : isHash [] = false)
    (hsnd : (parseName isHash name).2 = []) :
    parseName isHash name = (name, []) := by
  rw [parseName_eq] at hsnd ⊢
  by_cases hacc : isHash ((splitDots (pathSplit name).2).getD
      (candIdx (splitDots (pathSplit name).2)) []) = true
  · rw [if_pos hacc] at hsnd
    simp only at hsnd
    rw [hsnd] at hacc
    rw [h0] at hacc
    cases hacc
  · rw [if_neg hacc]

theorem parseName_snd_props {isHash : List Char → Bool} {name : List Char}
    (hsnd : (parseName isHash name).2 ≠ []) :
    isHash ((parseName isHash name).2) = true ∧
    '.' ∉ (parseName isHash name).2 ∧ '/' ∉ (parseName isHash name).2 := by
  rw [parseName_eq]
  by_cases hacc : isHash ((splitDots (pathSplit name).2).getD
      (candIdx (splitDots (pathSplit name).2)) []) = true
  · rw [if_pos hacc]
    simp only
    have hk := candIdx_lt (splitDots (pathSplit name).2)
      (splitDots_ne_nil (pathSplit name).2)
    have hmem : (splitDots (pathSplit name).2).getD
        (candIdx (splitDots (pathSplit name).2)) [] ∈
        splitDots (pathSplit name).2 := by
      rw [List.getD_eq_getElem _ _ hk]
      exact List.getElem_mem _
    refine ⟨hacc, splitDots_parts_dotFree _ _ hmem, ?_⟩
    intro hsl
    exact pathSplit_snd_noSlash name
      (splitDots_parts_chars _ _ hmem _ hsl)
  · rw [parseName_eq, if_neg hacc] at hsnd
    simp at hsnd

theorem hashPure_ok_token {fs : FSys} {hasher : HasherI} {n h : List Char}
    (HOK : HasherOK hasher) (hp : hashPure fs hasher n = .ok h) :
    h = [] ∨ (hasher.isHash h = true ∧ '.' ∉ h ∧ '/' ∉ h) := by
  rw [hashPure] at hp
  split at hp
  · cases hp
  · split at hp
    · cases hp
    · split at hp
      · cases hp
      · split at hp
        · cases hp
        · next h2 hh =>
            injection hp with hp
            rw [← hp]
            exact HOK.2 _ _ hh

theorem hashPure_compute {fs : FSys} {hasher : HasherI} {n h : List Char}
    {file : File} {info : FInfo}
    (ho : fs.openFile n = .ok file) (hs : file.stat = .ok info)
    (hd : info.isDir = false) (hh : hasher.hashF file.content = .ok h) :
    hashPure fs hasher n = .ok h := by
  simp [hashPure, ho, hs, hd, hh]

theorem candIdx_append_two (U : List (List Char)) (x y : List Char)
    (hU : U ≠ []) (hh1 : U.length = 1 → U.headD [] ≠ []) :
    candIdx (U ++ [x, y]) = U.length := by
  have hlen : (U ++ [x, y]).length = U.length + 2 := by simp
  have hpos : 1 ≤ U.length := by
    cases U with
    | nil => exact absurd rfl hU
    | cons a u => simp
  rw [candIdx, hlen]
  rw [if_pos ?cond]
  · omega
  case cond =>
    refine ⟨by omega, ?_⟩
    rintro ⟨h3, hhd⟩
    have hm1 : U.length = 1 := by omega
    rw [headD_append_of_ne_nil U [x, y] [] hU] at hhd
    exact hh1 hm1 hhd

/-- Computation rule for an accepted parse, assembled from component
equations. -/
theorem parseName_compute (isHash : List Char → Bool) (p d g : List Char)
    (parts : List (List Char)) (k : Nat)
    (hps : pathSplit p = (d, g))
    (hparts : splitDots g = parts)
    (hk : candIdx parts = k)
    (hacc : isHash (parts.getD k []) = true) :
    parseName isHash p = (d ++ joinParts (parts.eraseIdx k), parts.getD k []) := by
  have h0 := parseName_eq isHash p
  simp only [hps] at h0
  simp only [hparts, hk, hacc, if_pos] at h0
  exact h0

theorem hashedPath_ne (name hash : List Char) (hne : hash ≠ []) :
    HashFS.hashedPath name hash =
      match lastDotIdx (pathSplit name).2 with
      | some i =>
        if 0 < i then
          (pathSplit name).1 ++
            ((pathSplit name).2.take i ++ '.' :: (hash ++ (pathSplit name).2.drop i))
        else (pathSplit name).1 ++ ((pathSplit name).2 ++ '.' :: hash)
      | none => (pathSplit name).1 ++ ((pathSplit name).2 ++ '.' :: hash) := by
  rw [HashFS.hashedPath, if_neg hne]

/-- Stripping inverts synthesis: parsing `hashedPath cn h` for a nonempty,
accepted, dot- and slash-free token `h` recovers `(cn, h)`. -/
theorem parseName_hashedPath (isHash : List Char → Bool) (cn h : List Char)
    (hne : h ≠ []) (hacc : isHash h = true) (hdot : '.' ∉ h)
    (hslash : '/' ∉ h) :
    parseName isHash (HashFS.hashedPath cn h) = (cn, h) := by
  have hdf : (pathSplit cn).1 ++ (pathSplit cn).2 = cn := pathSplit_append_eq cn
  have hfsl : '/' ∉ (pathSplit cn).2 := pathSplit_snd_noSlash cn
  rw [hashedPath_ne cn h hne]
  rcases hidx : lastDotIdx (pathSplit cn).2 with _ | i
  · -- no dot in the final segment: append branch
    show parseName isHash
      ((pathSplit cn).1 ++ ((pathSplit cn).2 ++ '.' :: h)) = (cn, h)
    have hfdot : '.' ∉ (pathSplit cn).2 := (lastDotIdx_none_iff _).mp hidx
    have hg : '/' ∉ (pathSplit cn).2 ++ '.' :: h := by
      intro hm
      rcases List.mem_append.mp hm with hm | hm
      · exact hfsl hm
      · rcases hm with _ | ⟨_, hm⟩
        · exact hslash hm
    have hparts : splitDots ((pathSplit cn).2 ++ '.' :: h) =
        [(pathSplit cn).2, h] := by
      rw [splitDots_append_dot, splitDots_dotFree _ hfdot,
        splitDots_dotFree h hdot]
      rfl
    have hk : candIdx [(pathSplit cn).2, h] = 1 := by
      rw [candIdx]
      simp
    rw [parseName_compute isHash _ _ _ [(pathSplit cn).2, h] 1
      (pathSplit_resplit cn _ hg) hparts hk (by simpa using hacc)]
    simp only [List.eraseIdx, joinParts, joinRest, List.append_nil,
      List.getD_cons_succ, List.getD_cons_zero]
    rw [hdf]
  · show parseName isHash
      (if 0 < i then
        (pathSplit cn).1 ++
          ((pathSplit cn).2.take i ++ '.' :: (h ++ (pathSplit cn).2.drop i))
      else (pathSplit cn).1 ++ ((pathSplit cn).2 ++ '.' :: h)) = (cn, h)
    by_cases hpos : 0 < i
    · -- insert before the trailing extension
      rw [if_pos hpos]
      obtain ⟨u, v, hfe, hul, hvdot⟩ := lastDotIdx_some _ i hidx
      have hune : u ≠ [] := by
        intro hnil
        rw [hnil] at hul
        simp at hul
        omega
      have htake : (pathSplit cn).2.take i = u := by
        rw [hfe, ← hul]
        exact List.take_left _ _
      have hdrop : (pathSplit cn).2.drop i = '.' :: v := by
        rw [hfe, ← hul]
        exact List.drop_left _ _
      rw [htake, hdrop]
      have humem : ∀ c ∈ u, c ∈ (pathSplit cn).2 := by
        intro c hc
        rw [hfe]
        exact List.mem_append_left _ hc
      have hvmem : ∀ c ∈ v, c ∈ (pathSplit cn).2 := by
        intro c hc
        rw [hfe]
        exact List.mem_append_right _ (List.mem_cons_of_mem _ hc)
      have hg : '/' ∉ u ++ '.' :: (h ++ '.' :: v) := by
        intro hm
        rcases List.mem_append.mp hm with hm | hm
        · exact hfsl (humem _ hm)
        · rcases hm with _ | ⟨_, hm⟩
          rcases List.mem_append.mp hm with hm | hm
          · exact hslash hm
          · rcases hm with _ | ⟨_, hm⟩
            · exact hfsl (hvmem _ hm)
      have hU := splitDots_ne_nil u
      have hh1 : (splitDots u).length = 1 → (splitDots u).headD [] ≠ [] := by
        intro h1
        rw [splitDots_len_one u h1]
        simp only [List.headD_cons]
        intro hnil
        exact hune hnil
      have hparts : splitDots (u ++ '.' :: (h ++ '.' :: v)) =
          splitDots u ++ [h, v] := by
        rw [splitDots_append_dot, splitDots_append_dot,
          splitDots_dotFree h hdot, splitDots_dotFree v hvdot]
        rfl
      have hk := candIdx_append_two (splitDots u) h v hU hh1
      have hgd : (splitDots u ++ [h, v]).getD (splitDots u).length [] = h := by
        rw [getD_append_len]
        rfl
      rw [parseName_compute isHash _ _ _ (splitDots u ++ [h, v])
        (splitDots u).length (pathSplit_resplit cn _ hg) hparts hk
        (by rw [hgd]; exact hacc)]
      rw [hgd, eraseIdx_append_len,
        show ([h, v].eraseIdx 0 : List (List Char)) = [v] from rfl,
        joinParts_append _ _ hU, joinParts_splitDots]
      simp only [joinRest, List.append_nil]
      rw [← hfe, hdf]
    · -- last dot at index 0 (a dotfile): append branch
      rw [if_neg hpos]
      obtain ⟨u, v, hfe, hul, hvdot⟩ := lastDotIdx_some _ i hidx
      have hu0 : u = [] := by
        have : i = 0 := by omega
        rw [this] at hul
        exact List.length_eq_zero.mp hul
      rw [hu0, List.nil_append] at hfe
      have hg : '/' ∉ (pathSplit cn).2 ++ '.' :: h := by
        intro hm
        rcases List.mem_append.mp hm with hm | hm
        · exact hfsl hm
        · rcases hm with _ | ⟨_, hm⟩
          · exact hslash hm
      have hparts : splitDots ((pathSplit cn).2 ++ '.' :: h) =
          [[], v, h] := by
        rw [splitDots_append_dot, splitDots_dotFree h hdot, hfe, splitDots,
          if_pos rfl, splitDots_dotFree v hvdot]
        rfl
      have hk : candIdx [[], v, h] = 2 := by
        rw [candIdx]
        simp
      rw [parseName_compute isHash _ _ _ [[], v, h] 2
        (pathSplit_resplit cn _ hg) hparts hk (by simpa using hacc)]
      simp only [List.eraseIdx, joinParts, joinRest, List.append_nil,
        List.getD_cons_succ, List.getD_cons_zero, List.nil_append]
      rw [← hfe, hdf]

theorem joinRest_noSlash (Q : List (List Char))
    (hQ : ∀ p ∈ Q, '/' ∉ p) : '/' ∉ joinRest Q := by
  induction Q with
  | nil => simp [joinRest]
  | cons p ps ih =>
    rw [joinRest]
    intro hm
    rcases hm with _ | ⟨_, hm⟩
    rcases List.mem_append.mp hm with hm | hm
    · exact hQ p (List.mem_cons_self _ _) hm
    · exact ih (fun q hq => hQ q (List.mem_cons_of_mem _ hq)) hm

theorem joinParts_noSlash (Q : List (List Char))
    (hQ : ∀ p ∈ Q, '/' ∉ p) : '/' ∉ joinParts Q := by
  cases Q with
  | nil => simp [joinParts]
  | cons p ps =>
    rw [joinParts]
    intro hm
    rcases List.mem_append.mp hm with hm | hm
    · exact hQ p (List.mem_cons_self _ _) hm
    · exact joinRest_noSlash ps (fun q hq => hQ q (List.mem_cons_of_mem _ hq)) hm

theorem joinParts_eq_nil (T : List (List Char)) (h : joinParts T = []) :
    T = [] ∨ T = [[]] := by
  cases T with
  | nil => exact Or.inl rfl
  | cons p ps =>
    rw [joinParts] at h
    rcases List.append_eq_nil.mp h with ⟨hp, hr⟩
    cases ps with
    | nil =>
      right
      rw [hp]
    | cons q qs => simp [joinRest] at hr

theorem take_two_tail {α : Type} (d : α) :
    ∀ (Q : List α) (m : Nat), Q.length = m + 2 →
    Q = Q.take m ++ [Q.getD m d, Q.getD (m + 1) d] := by
  intro Q
  induction Q with
  | nil => intro m h; simp at h
  | cons a Q ih =>
    intro m h
    cases m with
    | zero =>
      rw [List.length_cons] at h
      cases Q with
      | nil => simp at h
      | cons b Q2 =>
        rw [List.length_cons] at h
        have : Q2 = [] := List.length_eq_zero.mp (by omega)
        subst this
        rfl
    | succ m2 =>
      rw [List.length_cons] at h
      have h2 := ih m2 (by omega)
      rw [List.take_succ_cons, List.getD_cons_succ, List.getD_cons_succ,
        List.cons_append]
      rw [← h2]

theorem take_one_head {α : Type} (d : α) (Q : List α) (h : 1 ≤ Q.length) :
    Q.take 1 = [Q.getD 0 d] := by
  cases Q with
  | nil => simp at h
  | cons a Q => rfl

theorem headD_eq_getD_zero {α : Type} (d : α) (Q : List α) :
    Q.headD d = Q.getD 0 d := by
  cases Q <;> rfl

theorem eraseIdx_of_decomp {α : Type} (Q T : List α) (a b : α) (m : Nat)
    (hdec : Q = T ++ [a, b]) (hT : T.length = m) :
    Q.eraseIdx m = T ++ [b] := by
  subst hdec
  subst hT
  rw [eraseIdx_append_len]
  rfl

/-- The insert branch of `hashedPath`, as a standalone equation. -/
theorem hashedPath_insert (name hash : List Char) (i : Nat)
    (hne : hash ≠ []) (hidx : lastDotIdx (pathSplit name).2 = some i)
    (hpos : 0 < i) :
    HashFS.hashedPath name hash =
      (pathSplit name).1 ++
        ((pathSplit name).2.take i ++
          '.' :: (hash ++ (pathSplit name).2.drop i)) := by
  rw [HashFS.hashedPath, if_neg hne]
  simp only [hidx, hpos, if_pos]

/-- The append branch of `hashedPath`, as a standalone equation. -/
theorem hashedPath_append (name hash : List Char)
    (hne : hash ≠ [])
    (hcase : lastDotIdx (pathSplit name).2 = none ∨
      lastDotIdx (pathSplit name).2 = some 0) :
    HashFS.hashedPath name hash =
      (pathSplit name).1 ++ ((pathSplit name).2 ++ '.' :: hash) := by
  rcases hcase with hc | hc
  · rw [HashFS.hashedPath, if_neg hne]
    simp only [hc]
  · rw [HashFS.hashedPath, if_neg hne]
    simp only [hc, Nat.lt_irrefl, if_neg, if_false]

/-- Reinsertion, middle case: the candidate sat between at least one leading
part and a trailing extension. -/
theorem hashedPath_join_mid (d : List Char) (T : List (List Char))
    (a b : List Char)
    (hps : ∀ g, '/' ∉ g → pathSplit (d ++ g) = (d, g))
    (hTne : T ≠ []) (hTnn : T ≠ [[]])
    (hdf : ∀ p ∈ T ++ [a, b], '.' ∉ p)
    (hsf : ∀ p ∈ T ++ [a, b], '/' ∉ p)
    (hane : a ≠ []) :
    HashFS.hashedPath (d ++ joinParts (T ++ [b])) a
      = d ++ joinParts (T ++ [a, b]) := by
  have hbdf : '.' ∉ b := hdf b (by simp)
  have hbsf : '/' ∉ b := hsf b (by simp)
  have hTsf : ∀ p ∈ T, '/' ∉ p := fun p hp => hsf p (List.mem_append_left _ hp)
  have hg1 : joinParts (T ++ [b]) = joinParts T ++ '.' :: b := by
    rw [joinParts_append _ _ hTne]
    simp [joinRest]
  have hgsf : '/' ∉ joinParts T ++ '.' :: b := by
    intro hm
    rcases List.mem_append.mp hm with hm | hm
    · exact joinParts_noSlash T hTsf hm
    · rcases hm with _ | ⟨_, hm⟩
      · exact hbsf hm
  have hps1 : pathSplit (d ++ joinParts (T ++ [b])) =
      (d, joinParts T ++ '.' :: b) := by
    rw [hg1]
    exact hps _ hgsf
  have h1 : (pathSplit (d ++ joinParts (T ++ [b]))).1 = d := by rw [hps1]
  have h2 : (pathSplit (d ++ joinParts (T ++ [b]))).2 =
      joinParts T ++ '.' :: b := by rw [hps1]
  have hTpos : joinParts T ≠ [] := by
    intro h0
    rcases joinParts_eq_nil T h0 with h | h
    · exact hTne h
    · exact hTnn h
  have hidx : lastDotIdx (pathSplit (d ++ joinParts (T ++ [b]))).2 =
      some (joinParts T).length := by
    rw [h2]
    exact lastDotIdx_append _ _ hbdf
  have hpos : 0 < (joinParts T).length := List.length_pos.mpr hTpos
  have htake : (pathSplit (d ++ joinParts (T ++ [b]))).2.take
      (joinParts T).length = joinParts T := by
    rw [h2]
    exact List.take_left _ _
  have hdrop : (pathSplit (d ++ joinParts (T ++ [b]))).2.drop
      (joinParts T).length = '.' :: b := by
    rw [h2]
    exact List.drop_left _ _
  rw [hashedPath_insert _ a _ hane hidx hpos, htake, hdrop, h1]
  rw [joinParts_append _ _ hTne]
  simp [joinRest]

/-- Reinsertion, two-part case: the candidate was the extension itself. -/
theorem hashedPath_join_two (d a b : List Char)
    (hps : ∀ g, '/' ∉ g → pathSplit (d ++ g) = (d, g))
    (hadf : '.' ∉ a) (hasf : '/' ∉ a) (hbne : b ≠ []) :
    HashFS.hashedPath (d ++ joinParts [a]) b = d ++ joinParts [a, b] := by
  have hg1 : joinParts [a] = a := by simp [joinParts, joinRest]
  have hps1 : pathSplit (d ++ joinParts [a]) = (d, a) := by
    rw [hg1]
    exact hps a hasf
  have h1 : (pathSplit (d ++ joinParts [a])).1 = d := by rw [hps1]
  have h2 : (pathSplit (d ++ joinParts [a])).2 = a := by rw [hps1]
  have hidx : lastDotIdx (pathSplit (d ++ joinParts [a])).2 = none := by
    rw [h2]
    exact (lastDotIdx_none_iff a).mpr hadf
  rw [hashedPath_append _ b hbne (Or.inl hidx), h1, h2]
  simp [joinParts, joinRest]

/-- Reinsertion, dotfile case: empty leading part, one real part, the
candidate last. -/
theorem hashedPath_join_dotfile (d b c : List Char)
    (hps : ∀ g, '/' ∉ g → pathSplit (d ++ g) = (d, g))
    (hbdf : '.' ∉ b) (hbsf : '/' ∉ b) (hcne : c ≠ []) :
    HashFS.hashedPath (d ++ joinParts [[], b]) c
      = d ++ joinParts [[], b, c] := by
  have hg1 : joinParts [[], b] = '.' :: b := by simp [joinParts, joinRest]
  have hgsf : '/' ∉ ('.' :: b : List Char) := by
    intro hm
    rcases hm with _ | ⟨_, hm⟩
    · exact hbsf hm
  have hps1 : pathSplit (d ++ joinParts [[], b]) = (d, '.' :: b) := by
    rw [hg1]
    exact hps _ hgsf
  have h1 : (pathSplit (d ++ joinParts [[], b])).1 = d := by rw [hps1]
  have h2 : (pathSplit (d ++ joinParts [[], b])).2 = '.' :: b := by rw [hps1]
  have hidx : lastDotIdx (pathSplit (d ++ joinParts [[], b])).2 = some 0 := by
    rw [h2]
    have h3 := lastDotIdx_append [] b hbdf
    simpa using h3
  rw [hashedPath_append _ c hcne (Or.inr hidx), h1, h2]
  simp [joinParts, joinRest]

/-- Synthesis inverts stripping: rejoining after erasing the accepted
candidate and handing the candidate back to `hashedPath` restores the
original dot-joined segment, whenever there were at least two parts. -/
theorem hashedPath_join (d : List Char) (P : List (List Char))
    (hps : ∀ g, '/' ∉ g → pathSplit (d ++ g) = (d, g))
    (hdf : ∀ p ∈ P, '.' ∉ p)
    (hsf : ∀ p ∈ P, '/' ∉ p)
    (hcne : P.getD (candIdx P) [] ≠ [])
    (hlen : 2 ≤ P.length) :
    HashFS.hashedPath (d ++ joinParts (P.eraseIdx (candIdx P)))
      (P.getD (candIdx P) []) = d ++ joinParts P := by
  by_cases hC : 2 < P.length ∧ ¬(P.length = 3 ∧ P.headD [] = [])
  · have hgt := hC.1
    have hk : candIdx P = P.length - 2 := by rw [candIdx, if_pos hC]
    have hdec := take_two_tail ([] : List Char) P (P.length - 2) (by omega)
    have hTlen : (P.take (P.length - 2)).length = P.length - 2 := by
      rw [List.length_take]
      omega
    have hTne : P.take (P.length - 2) ≠ [] := by
      intro h0
      rw [h0] at hTlen
      simp only [List.length_nil] at hTlen
      omega
    have hTnn : P.take (P.length - 2) ≠ [[]] := by
      intro h0
      have h3 : P.length = 3 := by
        rw [h0] at hTlen
        simp only [List.length_cons, List.length_nil] at hTlen
        omega
      apply hC.2
      refine ⟨h3, ?_⟩
      have hhd : P.headD [] = (P.take (P.length - 2)).headD [] := by
        nth_rewrite 1 [hdec]
        rw [headD_append_of_ne_nil _ _ _ hTne]
      rw [hhd, h0]
      rfl
    have herase := eraseIdx_of_decomp P (P.take (P.length - 2))
      (P.getD (P.length - 2) []) (P.getD (P.length - 2 + 1) [])
      (P.length - 2) hdec hTlen
    have hdf2 : ∀ p ∈ P.take (P.length - 2) ++
        [P.getD (P.length - 2) [], P.getD (P.length - 2 + 1) []],
        '.' ∉ p := by
      rw [← hdec]
      exact hdf
    have hsf2 : ∀ p ∈ P.take (P.length - 2) ++
        [P.getD (P.length - 2) [], P.getD (P.length - 2 + 1) []],
        '/' ∉ p := by
      rw [← hdec]
      exact hsf
    have hane : P.getD (P.length - 2) [] ≠ [] := by
      rw [hk] at hcne
      exact hcne
    have hmain := hashedPath_join_mid d (P.take (P.length - 2))
      (P.getD (P.length - 2) []) (P.getD (P.length - 2 + 1) [])
      hps hTne hTnn hdf2 hsf2 hane
    rw [hk, herase, hmain, ← hdec]
  · have hk : candIdx P = P.length - 1 := by rw [candIdx, if_neg hC]
    by_cases h2 : P.length = 2
    · have hdec := take_two_tail ([] : List Char) P 0 (by omega)
      rw [List.take_zero, List.nil_append] at hdec
      have hdec2 : P = [P.getD 0 [], P.getD 1 []] := hdec
      have hk1 : candIdx P = 1 := by omega
      have hamem : P.getD 0 [] ∈ P := by
        rw [List.getD_eq_getElem P [] (by omega)]
        exact List.getElem_mem _
      have hbne : P.getD 1 [] ≠ [] := by
        rw [hk1] at hcne
        exact hcne
      have hmain := hashedPath_join_two d (P.getD 0 []) (P.getD 1 [])
        hps (hdf _ hamem) (hsf _ hamem) hbne
      rw [hk1]
      nth_rewrite 1 [hdec2]
      show HashFS.hashedPath (d ++ joinParts [P.getD 0 []])
        (P.getD 1 []) = d ++ joinParts P
      rw [hmain, ← hdec2]
    · have h3 : P.length = 3 ∧ P.headD [] = [] := by
        by_contra hno
        exact hC ⟨by omega, hno⟩
      obtain ⟨h3len, h3hd⟩ := h3
      have hk2 : candIdx P = 2 := by omega
      have hdec := take_two_tail ([] : List Char) P 1 (by omega)
      have ht1 : P.take 1 = [[]] := by
        rw [take_one_head ([] : List Char) P (by omega)]
        rw [← headD_eq_getD_zero, h3hd]
      rw [ht1] at hdec
      have hdec2 : P = [[], P.getD 1 [], P.getD 2 []] := hdec
      have hbmem : P.getD 1 [] ∈ P := by
        rw [List.getD_eq_getElem P [] (by omega)]
        exact List.getElem_mem _
      have hcne2 : P.getD 2 [] ≠ [] := by
        rw [hk2] at hcne
        exact hcne
      have hmain := hashedPath_join_dotfile d (P.getD 1 []) (P.getD 2 [])
        hps (hdf _ hbmem) (hsf _ hbmem) hcne2
      rw [hk2]
      nth_rewrite 1 [hdec2]
      show HashFS.hashedPath (d ++ joinParts [[], P.getD 1 []])
        (P.getD 2 []) = d ++ joinParts P
      rw [hmain, ← hdec2]

/-- Synthesis inverts stripping, top level: for an accepted parse whose
final segment had at least two dot-parts, `hashedPath` of the parse result
restores the requested name. -/
theorem hashedPath_parse (isHash : List Char → Bool) (name : List Char)
    (hsnd : (parseName isHash name).2 ≠ [])
    (hlen : 2 ≤ (splitDots (pathSplit name).2).length) :
    HashFS.hashedPath (parseName isHash name).1 (parseName isHash name).2
      = name := by
  have hacc : isHash ((splitDots (pathSplit name).2).getD
      (candIdx (splitDots (pathSplit name).2)) []) = true := by
    by_contra hno
    rw [parseName_eq, if_neg hno] at hsnd
    exact hsnd rfl
  have hpn := parseName_eq isHash name
  rw [if_pos hacc] at hpn
  have hp1 : (parseName isHash name).1 =
      (pathSplit name).1 ++ joinParts ((splitDots (pathSplit name).2).eraseIdx
        (candIdx (splitDots (pathSplit name).2))) := by
    rw [hpn]
  have hp2 : (parseName isHash name).2 =
      (splitDots (pathSplit name).2).getD
        (candIdx (splitDots (pathSplit name).2)) [] := by
    rw [hpn]
  have hcne : (splitDots (pathSplit name).2).getD
      (candIdx (splitDots (pathSplit name).2)) [] ≠ [] := by
    rw [← hp2]
    exact hsnd
  have hsf : ∀ p ∈ splitDots (pathSplit name).2, '/' ∉ p := by
    intro p hp hm
    exact pathSplit_snd_noSlash name (splitDots_parts_chars _ p hp '/' hm)
  have hmain := hashedPath_join (pathSplit name).1
    (splitDots (pathSplit name).2)
    (fun g hg => pathSplit_resplit name g hg)
    (splitDots_parts_dotFree _) hsf hcne hlen
  rw [hp1, hp2, hmain, joinParts_splitDots, pathSplit_append_eq]

theorem hashedPath_nil (cn : List Char) : HashFS.hashedPath cn [] = cn := by
  rw [HashFS.hashedPath, if_pos rfl]

/-- Resolving a hash-free name that hashes successfully returns the name
itself together with its content hash. -/
theorem canonicalPure_free (fs : FSys) (hasher : HasherI) (cn t : List Char)
    (h0 : hasher.isHash [] = false)
    (hfree : (parseName hasher.isHash cn).2 = [])
    (hhash : hashPure fs hasher cn = .ok t) :
    canonicalPure fs hasher cn = .ok (cn, t) := by
  have hpn := parseName_snd_nil h0 hfree
  have hpn1 : (parseName hasher.isHash cn).1 = cn := by rw [hpn]
  rw [canonicalPure, hpn1, hfree, hhash]
  simp [cnFinishPure]

/-- Resolving the public name built from `cn` and its nonempty content hash
yields `(cn, hash)` back. -/
theorem canonicalPure_hashedPath_ne (fs : FSys) (hasher : HasherI)
    (cn h : List Char) (HOK : HasherOK hasher)
    (hne : h ≠ []) (hhash : hashPure fs hasher cn = .ok h) :
    canonicalPure fs hasher (HashFS.hashedPath cn h) = .ok (cn, h) := by
  rcases hashPure_ok_token HOK hhash with h0 | ⟨hacc, hdot, hslash⟩
  · exact absurd h0 hne
  · have hstrip := parseName_hashedPath hasher.isHash cn h hne hacc hdot hslash
    have hs1 : (parseName hasher.isHash (HashFS.hashedPath cn h)).1 = cn := by
      rw [hstrip]
    have hs2 : (parseName hasher.isHash (HashFS.hashedPath cn h)).2 = h := by
      rw [hstrip]
    rw [canonicalPure, hs1, hs2, hhash]
    simp [cnFinishPure]

/-- The round-trip invariant, cache-free form: whenever the canonical
hash-free name hashes successfully, resolving its synthesized public name
recovers the canonical name and the hash. -/
theorem canonicalPure_roundtrip (fs : FSys) (hasher : HasherI)
    (cn h : List Char) (HOK : HasherOK hasher)
    (hhash : hashPure fs hasher cn = .ok h)
    (hfree : (parseName hasher.isHash cn).2 = []) :
    canonicalPure fs hasher (HashFS.hashedPath cn h) = .ok (cn, h) := by
  by_cases hne : h = []
  · subst hne
    rw [hashedPath_nil]
    exact canonicalPure_free fs hasher cn [] HOK.1 hfree hhash
  · exact canonicalPure_hashedPath_ne fs hasher cn h HOK hne hhash

/-- Every successful resolution falls in one of three shapes: an empty hash
with the name returned literally, a nonempty hash of an existing canonical
file, or a nonempty candidate stripped from a name that synthesis restores
verbatim. The exclusion hypothesis rules out the single-bare-token segment,
where the stripped directory prefix loses the candidate's position. -/
theorem canonicalPure_cases (fs : FSys) (hasher : HasherI)
    (name cn h : List Char)
    (HOK : HasherOK hasher)
    (hres : canonicalPure fs hasher name = .ok (cn, h))
    (hexcl : 2 ≤ (splitDots (pathSplit name).2).length ∨
      (parseName hasher.isHash name).2 = []) :
    (h = [] ∧ cn = name) ∨
    (h ≠ [] ∧ hashPure fs hasher cn = .ok h) ∨
    (h ≠ [] ∧ HashFS.hashedPath cn h = name) := by
  rw [canonicalPure] at hres
  split at hres
  · next h0 hA =>
    rw [cnFinishPure] at hres
    split at hres
    · next hcond =>
      split at hres
      · next e heq => exact Except.noConfusion hres
      · next h2 heq =>
        split at hres
        · next hne2 =>
          simp only [Except.ok.injEq, Prod.mk.injEq] at hres
          obtain ⟨hcn, hh⟩ := hres
          by_cases hhe : h = []
          · exact Or.inl ⟨hhe, hcn.symm⟩
          · refine Or.inr (Or.inl ⟨hhe, ?_⟩)
            rw [← hcn, ← hh]
            exact heq
        · simp only [Except.ok.injEq, Prod.mk.injEq] at hres
          exact Or.inl ⟨hres.2.symm, hres.1.symm⟩
    · next hcond =>
      simp only [Except.ok.injEq, Prod.mk.injEq] at hres
      obtain ⟨hcn, hh⟩ := hres
      by_cases hhe : h = []
      · refine Or.inl ⟨hhe, ?_⟩
        have hp2 : (parseName hasher.isHash name).2 = [] := by
          by_contra hp2e
          apply hcond
          refine ⟨hp2e, ?_⟩
          rw [hh, hhe]
          exact hp2e
        have hpn := parseName_snd_nil HOK.1 hp2
        rw [← hcn, hpn]
      · refine Or.inr (Or.inl ⟨hhe, ?_⟩)
        rw [← hcn, ← hh]
        exact hA
  · next e hB =>
    split at hres
    · next hnx =>
      split at hres
      · next h2 hB2 =>
        rw [cnFinishPure] at hres
        split at hres
        · next hcond =>
          split at hres
          · next e2 heq =>
            rw [hB2] at heq
            exact Except.noConfusion heq
          · next h2b heq =>
            rw [hB2] at heq
            injection heq with heq2
            subst heq2
            split at hres
            · next hne2 =>
              simp only [Except.ok.injEq, Prod.mk.injEq] at hres
              obtain ⟨hcn, hh⟩ := hres
              by_cases hhe : h = []
              · exact Or.inl ⟨hhe, hcn.symm⟩
              · refine Or.inr (Or.inl ⟨hhe, ?_⟩)
                rw [← hcn, ← hh]
                exact hB2
            · simp only [Except.ok.injEq, Prod.mk.injEq] at hres
              exact Or.inl ⟨hres.2.symm, hres.1.symm⟩
        · next hcond =>
          simp only [Except.ok.injEq, Prod.mk.injEq] at hres
          obtain ⟨hcn, hh⟩ := hres
          by_cases hp2e : (parseName hasher.isHash name).2 = []
          · exfalso
            have hpn := parseName_snd_nil HOK.1 hp2e
            have hpn1 : (parseName hasher.isHash name).1 = name := by
              rw [hpn]
            rw [hpn1, hB2] at hB
            exact Except.noConfusion hB
          · have hagree : (parseName hasher.isHash name).2 = h2 := by
              by_contra hno
              exact hcond ⟨hp2e, hno⟩
            have hhe : h ≠ [] := by
              rw [← hh, ← hagree]
              exact hp2e
            refine Or.inr (Or.inr ⟨hhe, ?_⟩)
            have hlen : 2 ≤ (splitDots (pathSplit name).2).length := by
              rcases hexcl with hl | hl
              · exact hl
              · exact absurd hl hp2e
            have hrestore := hashedPath_parse hasher.isHash name hp2e hlen
            rw [← hcn, ← hh, ← hagree]
            exact hrestore
      · next e2 hB2 => exact Except.noConfusion hres
    · exact Except.noConfusion hres

/-- Resolution is stable on its own output: the public name a successful
resolution would synthesize resolves to the same canonical pair. -/
theorem canonicalPure_idem (fs : FSys) (hasher : HasherI)
    (name cn h : List Char) (HOK : HasherOK hasher)
    (hres : canonicalPure fs hasher name = .ok (cn, h))
    (hexcl : 2 ≤ (splitDots (pathSplit name).2).length ∨
      (parseName hasher.isHash name).2 = []) :
    canonicalPure fs hasher (HashFS.hashedPath cn h) = .ok (cn, h) := by
  rcases canonicalPure_cases fs hasher name cn h HOK hres hexcl with
    ⟨hhe, hcn⟩ | ⟨hne, hhash⟩ | ⟨hne, heq⟩
  · subst hhe
    subst hcn
    rw [hashedPath_nil]
    exact hres
  · exact canonicalPure_hashedPath_ne fs hasher cn h HOK hne hhash
  · rw [heq]
    exact hres

/-- The two-character hasher satisfies the token contract. -/
theorem twoCharHasher_OK : HasherOK twoCharHasher := by
  constructor
  · decide
  · intro c t ht
    injection ht with ht
    subst ht
    right
    exact ⟨by decide, by decide, by decide⟩

/-- C1 (amended): with a hasher honouring the token contract and a cache
consistent with the filesystem, (1) round-trip: for every canonical
(hash-free) name that exists and hashes successfully, resolving the public
name synthesized from it and its content hash yields back exactly that
canonical name with that hash; (2) idempotence: whenever `HashedPath`
succeeds on a name whose final segment is not a single bare accepted hash
token, applying `HashedPath` to its result returns that same result. -/
theorem hashfs_roundtrip_and_idem (fs : FSys) (hasher : HasherI)
    (cache : Cache) (name cn h p : List Char) (c1 : Cache)
    (HOK : HasherOK hasher) (COK : CacheOK fs hasher cache) :
    (hashPure fs hasher cn = .ok h →
      (parseName hasher.isHash cn).2 = [] →
      ∃ c2, HashFS.canonicalName fs hasher cache (HashFS.hashedPath cn h) =
        (.ok (cn, h), c2)) ∧
    (HashFS.HashedPath fs hasher cache name = (.ok p, c1) →
      (2 ≤ (splitDots (pathSplit name).2).length ∨
        (parseName hasher.isHash name).2 = []) →
      ∃ c2, HashFS.HashedPath fs hasher c1 p = (.ok p, c2)) := by
  constructor
  · intro hhash hfree
    obtain ⟨c2, he, hok2⟩ := canonicalName_refine COK (HashFS.hashedPath cn h)
    refine ⟨c2, ?_⟩
    rw [he, canonicalPure_roundtrip fs hasher cn h HOK hhash hfree]
  · intro hrun hexcl
    obtain ⟨c2, he, hok2⟩ := hashedPathTop_refine COK name
    rw [hrun] at he
    have hc : c1 = c2 := congrArg Prod.snd he
    have hv : (Except.ok p : Except Err (List Char)) =
        (canonicalPure fs hasher name).map
          (fun cnh => HashFS.hashedPath cnh.1 cnh.2) :=
      congrArg Prod.fst he
    subst hc
    cases hcp : canonicalPure fs hasher name with
    | error e =>
      rw [hcp] at hv
      exact Except.noConfusion hv
    | ok cnh =>
      obtain ⟨cn0, h0⟩ := cnh
      rw [hcp] at hv
      have hv2 : p = HashFS.hashedPath cn0 h0 := by
        injection hv
      subst hv2
      obtain ⟨c3, he2, hok3⟩ :=
        hashedPathTop_refine hok2 (HashFS.hashedPath cn0 h0)
      refine ⟨c3, ?_⟩
      rw [he2, canonicalPure_idem fs hasher name cn0 h0 HOK hcp hexcl]
      rfl

/-- C1 witness: the file `main.css` with content hash `ab` round-trips
through its public name `main.ab.css`, and `HashedPath` is idempotent on
`main.ab.css`. -/
theorem hashfs_roundtrip_and_idem_witness :
    (∃ c2, HashFS.canonicalName cssFS twoCharHasher []
        (HashFS.hashedPath ("main.css".toList) ("ab".toList)) =
      (.ok (("main.css".toList, "ab".toList)), c2)) ∧
    (∃ c2, HashFS.HashedPath cssFS twoCharHasher
        [("main.css".toList, "ab".toList)] ("main.ab.css".toList) =
      (.ok ("main.ab.css".toList), c2)) := by
  have h := hashfs_roundtrip_and_idem cssFS twoCharHasher []
    ("main.ab.css".toList) ("main.css".toList) ("ab".toList)
    ("main.ab.css".toList) [("main.css".toList, "ab".toList)]
    twoCharHasher_OK (cacheOK_nil _ _)
  exact ⟨h.1 (by decide) (by decide), h.2 (by decide) (Or.inl (by decide))⟩

/-- A filesystem holding one file whose name `ab` is itself an accepted
token and whose content hashes to that very token. -/
def tokenFS : FSys :=
  { emptyFS with
    openFile := fun n =>
      if n = "ab".toList then .ok ⟨.ok ⟨"ab".toList, 1, false⟩, [5]⟩
      else .error .notExist }

/-- C1 counterexample: `HashedPath` is not idempotent as claimed for every
name. For the file `ab` — a single bare accepted token hashing to itself —
the first call synthesizes `.ab`, but applying `HashedPath` to `.ab` fails
with not-found instead of returning `.ab`: stripping the lone token loses
its position, so resolution of `.ab` looks up the empty name and then
`.ab` itself, neither of which exists. -/
theorem hashfs_hashedpath_idem_cex :
    HashFS.HashedPath tokenFS twoCharHasher [] ("ab".toList) =
      (.ok (".ab".toList), [("ab".toList, "ab".toList)]) ∧
    HashFS.HashedPath tokenFS twoCharHasher [("ab".toList, "ab".toList)]
        (".ab".toList) =
      (.error (.wrap .openStage .notExist), [("ab".toList, "ab".toList)]) := by
  decide
